import Mathlib

/-!
# Verification of the cat-agent LLM core

A shallow embedding of the three core components of the repository:

* `truncate_input_messages_roughly` (`cat_agent/llm/base/truncation.py`),
* `postprocess_stop_words` (`cat_agent/llm/base/postprocessing.py`),
* `retry_model_service` / `_raise_or_delay` (`cat_agent/llm/base/retry.py`),

together with theorems settling the specification claims about them.

The Qwen tokenizer (`cat_agent/utils/tokenization_qwen.py`) and the message
schema (`cat_agent/llm/schema.py`) are not part of the sources; they are
modelled from the specification: the tokenizer as an abstract interface
(`Tokenizer`) with a concrete character-level instance (`charTok`) used for
witnesses and counterexamples, and the schema as the `Message` structure below.

Python string primitives are modelled over `List Char` (`pyFind`, `pyStrip`,
`pyEndsWith`, ...), matching CPython semantics on the operations used by the
code (`str.find`, `str.strip`, slicing, `in`).
-/

set_option linter.unusedVariables false

namespace CatAgent

/-! ## Python string primitives -/

/-- `text[:n]` for `n ≥ 0`: the first `n` characters. -/
def pyTake (s : String) (n : Nat) : String := ⟨s.data.take n⟩

/-- The last `n` characters of `s` (used by the keep-both-sides truncation). -/
def pyTakeRight (s : String) (n : Nat) : String := ⟨s.data.drop (s.data.length - n)⟩

/-- `text[:-n]`: for `n = 0` Python yields the empty string (`text[:0]`),
otherwise the string without its last `n` characters. -/
def pySliceNeg (s : String) (n : Nat) : String :=
  if n = 0 then ⟨[]⟩ else ⟨s.data.take (s.data.length - n)⟩

/-- `str.strip()`: remove leading and trailing whitespace. -/
def pyStrip (s : String) : String :=
  ⟨((s.data.dropWhile Char.isWhitespace).reverse.dropWhile Char.isWhitespace).reverse⟩

/-- Scan of `t.find(s)`: first position at which `s` starts in `t`. -/
def findSubGo (s : List Char) : List Char → Nat → Option Nat
  | [], k => if s = [] then some k else none
  | c :: rest, k =>
    if s.isPrefixOf (c :: rest) then some k else findSubGo s rest (k + 1)

/-- `t.find(s)` — `some` first index, or `none` where Python returns `-1`. -/
def pyFind (t s : String) : Option Nat := findSubGo s.data t.data 0

/-- `s in t` for Python strings. -/
def containsSubstr (t s : String) : Bool := (pyFind t s).isSome

/-- `t.endswith(s)`. -/
def pyEndsWith (t s : String) : Bool := s.data.isSuffixOf t.data

/-- Code-point lexicographic order on strings, as used by Python `sorted`. -/
def strLt (a b : String) : Bool := go a.data b.data
where
  go : List Char → List Char → Bool
    | [], [] => false
    | [], _ :: _ => true
    | _ :: _, [] => false
    | c :: cs, d :: ds => if c = d then go cs ds else decide (c < d)

/-- Insert into a sorted duplicate-free list, skipping duplicates. -/
def insertStr (x : String) : List String → List String
  | [] => [x]
  | y :: ys => if x = y then y :: ys else if strLt x y then x :: y :: ys else y :: insertStr x ys

/-- Python `sorted(set(l))`: the distinct elements in ascending order. -/
def sortedDedupStr (l : List String) : List String := l.foldl (fun acc x => insertStr x acc) []

/-! ## Data model (`cat_agent/llm/schema.py`, modelled from the spec and its tests)

A content item is either a text item or a non-text item (image/audio/...).
The claims under verification concern conversations without file uploads, so
non-text items are modelled as carrying no text (their `.text` attribute is
`None`, which the code treats as falsy / empty). -/

inductive Role where
  | system
  | user
  | assistant
  | function
  deriving DecidableEq, Repr

inductive ContentItem where
  | text (s : String)
  | other
  deriving DecidableEq, Repr

inductive MsgContent where
  | str (s : String)
  | items (l : List ContentItem)
  deriving DecidableEq, Repr

/-- One conversation turn entry.  `function_call` holds the rendered
`FunctionCall` payload (the code only ever feeds `f'{msg.function_call}'`
to the token counter). -/
structure Message where
  role : Role
  content : MsgContent
  function_call : Option String := none
  deriving DecidableEq, Repr

/-- `item.text` as a string: the text of a text item; non-text items have
`text = None`, which every use site treats as the empty/falsy case. -/
def itemText : ContentItem → String
  | .text s => s
  | .other => ""

/-- The items of a content value.  The postprocessing code iterates
`msg.content` directly and is only ever called on multimodal-formatted
messages (list content); string content is outside the modelled domain. -/
def contentItems : MsgContent → List ContentItem
  | .str _ => []
  | .items l => l

/-! ## Tokenizer interface (`cat_agent/utils/tokenization_qwen.py`)

Modelled from the spec: `count_tokens(text) -> integer >= 0` (deterministic),
`truncate(text, max_token, keep_both_sides)` keeping a prefix and a suffix,
`tokenize(text) -> token strings` and `convert_tokens_to_string` its inverse. -/

structure Tokenizer where
  count : String → Nat
  truncate : String → Int → Bool → String
  tokenize : String → List String
  convertTokensToString : List String → String

/-- The truncation law the spec ascribes to the tokenizer: truncating to a
budget of `m ≥ 0` tokens yields a text of at most `m` tokens, also after
stripping. -/
def Tokenizer.TruncBound (tok : Tokenizer) : Prop :=
  ∀ (s : String) (m : Int) (b : Bool), 0 ≤ m →
    (tok.count (pyStrip (tok.truncate s m b)) : Int) ≤ m

/-- Modelled from the spec: a concrete character-level instance of the
tokenizer interface (each character one token), standing in for the Qwen
tokenizer missing from the sources.  Used by witnesses and counterexamples. -/
def charTok : Tokenizer where
  count s := s.length
  truncate s m both :=
    let n := m.toNat
    if s.length ≤ n then s
    else if both then pyTake s (n - n / 2) ++ pyTakeRight s (n / 2)
    else pyTake s n
  tokenize s := s.data.map (fun c => String.mk [c])
  convertTokensToString l := String.join l

/-! ## Message helpers (`cat_agent/utils/message_utils.py`) -/

/-- `extract_text_from_message(msg, add_upload_info=True)`: string content is
returned stripped; list content is flattened to the concatenation of its text
items and stripped.  (Upload-info insertion only fires for file/image items,
which are outside the modelled conversations.) -/
def extractText (m : Message) : String :=
  match m.content with
  | .str s => pyStrip s
  | .items l => pyStrip (String.join (l.map itemText))

/-- `_count_tokens` (truncation.py:98-101): assistant messages carrying a
function call are counted by their rendered function call, every other
message by its extracted text. -/
def countTokensMsg (tok : Tokenizer) (m : Message) : Nat :=
  match m.function_call with
  | some fc => if m.role = .assistant then tok.count fc else tok.count (extractText m)
  | none => tok.count (extractText m)

/-- `_truncate_message` (truncation.py:104-115).  Returns `none` when the
content is a list containing an item with falsy text (Python `return None`);
otherwise a fresh message whose content is the truncated text (the
`function_call` field is not carried over). -/
def truncateMessage (tok : Tokenizer) (m : Message) (maxTokens : Int) (keepBothSides : Bool) :
    Option Message :=
  match m.content with
  | .str s => some { role := m.role, content := .str (tok.truncate s maxTokens keepBothSides) }
  | .items l =>
    if l.any (fun it => itemText it = "") then none
    else
      some { role := m.role,
             content := .str (tok.truncate (String.intercalate "\n" (l.map itemText))
                              maxTokens keepBothSides) }

/-! ## Truncation (`cat_agent/llm/base/truncation.py`) -/

/-- `ModelServiceError(code=..., message=...)` as raised by the truncator. -/
structure MSE where
  code : Option String
  message : Option String
  deriving DecidableEq, Repr

def errTooManySystem : MSE :=
  ⟨some "400",
   some "The input messages must contain no more than one system message.  And the system message, if exists, must be the first message."⟩

def errNotStartWithUser : MSE :=
  ⟨some "400",
   some "The input messages (excluding the system message) must start with a user message."⟩

def errBudget (maxTokens : Int) : MSE :=
  ⟨some "400",
   some s!"The input system has exceed the maximum input context length ({maxTokens} tokens)"⟩

/-- Failures of `truncate_input_messages_roughly`: a raised
`ModelServiceError`, or the `assert is_last_turn` failure in
`_truncate_turn`. -/
inductive TruncError where
  | mse (e : MSE)
  | assertionError
  deriving DecidableEq, Repr

/-- The validation performed by the turn-building loop (truncation.py:33-46):
it raises exactly when a non-system message appears before any user message,
i.e. it succeeds iff the first non-system message (if any) is a user
message.  (The `turns` list it builds is never read afterwards.) -/
def firstNonSystemIsUser : List Message → Bool
  | [] => true
  | m :: rest =>
    match m.role with
    | .system => firstNonSystemIsUser rest
    | .user => true
    | _ => false

/-- Recursion for `indexedTurns`: returns the indexed messages that belong to
a turn already open to the left, and the list of complete turns that follow.
System messages are skipped (`continue`), each user message opens a turn, and
every other message joins the currently open turn. -/
def turnSplitAux : Nat → List Message → List (Nat × Message) × List (List (Nat × Message))
  | _, [] => ([], [])
  | i, m :: rest =>
    let (cur, groups) := turnSplitAux (i + 1) rest
    match m.role with
    | .system => (cur, groups)
    | .user => ([], ((i, m) :: cur) :: groups)
    | _ => ((i, m) :: cur, groups)

/-- `indexed_messages_per_user` (truncation.py:52-62): the non-system
messages, enumerated by their position in the input, grouped by the last
preceding user message.  (After validation there are no entries before the
first user message.) -/
def indexedTurns (messages : List Message) : List (List (Nat × Message)) :=
  (turnSplitAux 0 messages).2

/-- `message_tokens` (truncation.py:50-59): a total map from message index to
token count, zero on system messages and out-of-range indices (the Python
defaultdict yields 0 for missing keys). -/
def msgTokensFn (tok : Tokenizer) (messages : List Message) : Nat → Nat := fun i =>
  match messages[i]? with
  | some m => if m.role = .system then 0 else countTokensMsg tok m
  | none => 0

/-- `available_token` after the enumeration loop: `max_tokens` minus the token
count of the (last) system message, if any. -/
def availableOf (tok : Tokenizer) (maxTokens : Int) (messages : List Message) : Int :=
  match (messages.filter (fun m => m.role = .system)).getLast? with
  | none => maxTokens
  | some s => maxTokens - countTokensMsg tok s

/-- `all_tokens = sum(message_tokens.values())`: total token count of the
non-system messages. -/
def allTokensOf (tok : Tokenizer) (messages : List Message) : Nat :=
  ((messages.filter (fun m => ¬ m.role = .system)).map (countTokensMsg tok)).sum

/-- Pointwise update of the token-count map (`message_tokens1[idx] = v`). -/
def updFn (f : Nat → Nat) (i v : Nat) : Nat → Nat := fun j => if j = i then v else f j

/-- Total token count of one turn (`sum(message_tokens1[idx] ...)`). -/
def turnTokens (mt : Nat → Nat) (pairs : List (Nat × Message)) : Nat :=
  (pairs.map (fun p => mt p.1)).sum

/-- First index of a step (`step[0][0]`). -/
def stepHeadIdx : List (Nat × Message) → Nat
  | [] => 0
  | (i, _) :: _ => i

/-- Loop of `_split_turn_into_steps` (truncation.py:221-237): `cur` is the
step currently being built and `lastRole` the role of its last message.  A
user (assistant) message joins the current step iff its last message is also
user (assistant); a function message always joins; a system message falls
through all branches and is dropped (turns never contain one). -/
def splitGo (cur : List (Nat × Message)) (lastRole : Role) :
    List (Nat × Message) → List (List (Nat × Message))
  | [] => [cur]
  | (i, m) :: rest =>
    match m.role with
    | .system => splitGo cur lastRole rest
    | .function => splitGo (cur ++ [(i, m)]) .function rest
    | r => if r = lastRole then splitGo (cur ++ [(i, m)]) r rest
           else cur :: splitGo [(i, m)] r rest

/-- `_split_turn_into_steps`.  (With an empty `steps` list a leading function
message would raise IndexError in Python; turns always start with a user
message, so that case is unreachable and modelled as opening a step.) -/
def splitTurnIntoSteps : List (Nat × Message) → List (List (Nat × Message))
  | [] => []
  | (i, m) :: rest => splitGo [(i, m)] m.role rest

/-- Step 1 of `_truncate_turn` (truncation.py:147-161): minimise function
results.  `.inl out` models the `break` after truncating one function result
(the loop then returns immediately with exceedance 0); `.inr` is the loop
running to completion, threading the updated token map and exceedance.
In-place `msg.content = 'omit'` mutations keep role and function call. -/
def step1Go (tok : Tokenizer) (isLastTurn : Bool) (lastStepIdx : Nat) :
    List (Nat × Message) → (Nat → Nat) → Int →
    (List (Nat × Option Message)) ⊕ (List (Nat × Message) × (Nat → Nat) × Int)
  | [], mt, exceedance => .inr ([], mt, exceedance)
  | (idx, m) :: rest, mt, exceedance =>
    if exceedance ≤ 0 ∨ ¬ m.role = .function ∨ (isLastTurn ∧ lastStepIdx ≤ idx) then
      match step1Go tok isLastTurn lastStepIdx rest mt exceedance with
      | .inl out => .inl ((idx, some m) :: out)
      | .inr (r, mt', e') => .inr ((idx, m) :: r, mt', e')
    else
      let fnTok : Int := mt idx
      if exceedance < fnTok then
        .inl ((idx, truncateMessage tok m (fnTok - exceedance) true) ::
              rest.map (fun p => (p.1, some p.2)))
      else
        match step1Go tok isLastTurn lastStepIdx rest (updFn mt idx 0) (exceedance - fnTok) with
        | .inl out => .inl ((idx, some { m with content := .str "omit" }) :: out)
        | .inr (r, mt', e') => .inr ((idx, { m with content := .str "omit" }) :: r, mt', e')

/-- Step 2 of `_truncate_turn` (truncation.py:166-178): walk the middle steps
(the argument is `steps.tail`; the final element — the last step — is
skipped), dropping each whole step until one closes the gap.  Returns the
`keep_idx` cutoff and the remaining exceedance. -/
def step2Go (mt : Nat → Nat) : List (List (Nat × Message)) → Int → Nat → Nat × Int
  | [], e, keepIdx => (keepIdx, e)
  | [_], e, keepIdx => (keepIdx, e)
  | step :: next :: rest, e, keepIdx =>
    let st : Int := turnTokens mt step
    if e ≤ st then (stepHeadIdx next, 0)
    else step2Go mt (next :: rest) (e - st) (stepHeadIdx next)

/-- Step 3 of `_truncate_turn` (truncation.py:186-199): truncate or omit the
function results of the last step; non-function messages are kept.  The loop
does not break, so after a truncation it continues with exceedance 0. -/
def step3Go (tok : Tokenizer) :
    (Nat → Nat) → List (Nat × Message) → Int →
    (List (Nat × Option Message) × (Nat → Nat) × Int)
  | mt, [], e => ([], mt, e)
  | mt, (idx, m) :: rest, e =>
    if ¬ m.role = .function then
      let (r, mt', e') := step3Go tok mt rest e
      ((idx, some m) :: r, mt', e')
    else
      let fnTok : Int := mt idx
      if e < fnTok then
        let (r, mt', e') := step3Go tok mt rest 0
        ((idx, truncateMessage tok m (fnTok - e) true) :: r, mt', e')
      else
        let (r, mt', e') := step3Go tok (updFn mt idx 0) rest (e - fnTok)
        ((idx, some { m with content := .str "omit" }) :: r, mt', e')

/-- Step 4 of `_truncate_turn` (truncation.py:207-216): omit messages until
one can close the gap by truncation, then break.  (The slots are options
because a step-3 truncation may have produced `None`; Python only reaches
this loop when no such truncation happened.) -/
def step4Go (tok : Tokenizer) (mt : Nat → Nat) :
    List (Nat × Option Message) → Int → List (Nat × Option Message)
  | [], _ => []
  | (idx, om) :: rest, e =>
    let fnTok : Int := mt idx
    if e < fnTok then
      (idx, om.bind (fun m => truncateMessage tok m (fnTok - e) true)) :: rest
    else
      (idx, om.map (fun m => { m with content := .str "omit" })) ::
        step4Go tok mt rest (e - fnTok)

/-- `_truncate_turn` (truncation.py:118-218).  Returns `none` on the
`assert is_last_turn` failure.  Output slots are `Option Message`: a slot is
`none` when `_truncate_message` returned `None` (list content with an
empty-text item).

The Python loops mutate shared `Message` objects in place; the functional
model recomputes the step structure after step 1 (in-place mutations change
only content, never roles, so the grouping is unchanged) and treats list
occurrences independently (occurrences are distinct except when a turn's
first and last step coincide, which requires a function message directly
after the user message — excluded by the tool-call pairing invariant). -/
def truncateTurn (tok : Tokenizer) (pairs : List (Nat × Message)) (mt : Nat → Nat)
    (exceedance : Int) (isLastTurn : Bool) : Option (List (Option Message) × Int) :=
  let allTokens : Int := turnTokens mt pairs
  if allTokens ≤ exceedance then some ([], exceedance - allTokens)
  else
    match pairs with
    | [(idx, m)] =>
      if isLastTurn then
        some ([truncateMessage tok m ((mt idx : Int) - exceedance) true], 0)
      else none
    | _ =>
      let steps := splitTurnIntoSteps pairs
      let lastStepIdx := stepHeadIdx (steps.getLastD [])
      match step1Go tok isLastTurn lastStepIdx pairs mt exceedance with
      | .inl broken => some (broken.map Prod.snd, 0)
      | .inr (pairs1, mt1, e1) =>
        if e1 ≤ 0 then some (pairs1.map (fun p => some p.2), 0)
        else
          let steps1 := splitTurnIntoSteps pairs1
          let (keepIdx, e2) := step2Go mt1 steps1.tail e1 0
          if e2 ≤ 0 then
            some (((steps1.headD []).map (fun p => some p.2)) ++
                  ((pairs1.filter (fun p => keepIdx ≤ p.1)).map (fun p => some p.2)), 0)
          else
            let (keep3, mt3, e3) := step3Go tok mt1 (steps1.getLastD []) e2
            let toKeep := ((steps1.headD []).map (fun p => (p.1, some p.2))) ++ keep3
            if e3 ≤ 0 then some (toKeep.map Prod.snd, 0)
            else some ((step4Go tok mt3 toKeep e3).map Prod.snd, 0)

/-- The truncation loop over turns (truncation.py:75-89): a turn is kept
verbatim once the exceedance is closed, otherwise `_truncate_turn` shrinks
it; the last turn is flagged. -/
def processTurns (tok : Tokenizer) (mt : Nat → Nat) :
    List (List (Nat × Message)) → Int → Option (List (Option Message))
  | [], _ => some []
  | t :: rest, e =>
    if e ≤ 0 then
      match processTurns tok mt rest e with
      | some out => some ((t.map (fun p => some p.2)) ++ out)
      | none => none
    else
      match truncateTurn tok t mt e (rest = []) with
      | none => none
      | some (newTurn, e') =>
        match processTurns tok mt rest e' with
        | some out => some (newTurn ++ out)
        | none => none

/-- `truncate_input_messages_roughly` (truncation.py:16-90). -/
def truncateInputMessagesRoughly (tok : Tokenizer) (messages : List Message)
    (maxTokens : Int) : Except TruncError (List (Option Message)) :=
  if 2 ≤ (messages.filter (fun m => m.role = .system)).length then
    .error (.mse errTooManySystem)
  else if messages = [] then .ok []
  else if ¬ firstNonSystemIsUser messages then .error (.mse errNotStartWithUser)
  else
    let available := availableOf tok maxTokens messages
    let allTokens : Int := allTokensOf tok messages
    if allTokens ≤ available then .ok (messages.map some)
    else if available ≤ 0 then .error (.mse (errBudget maxTokens))
    else
      let sysPrefix := (messages.filter (fun m => m.role = .system)).map some
      match processTurns tok (msgTokensFn tok messages) (indexedTurns messages)
              (allTokens - available) with
      | some out => .ok (sysPrefix ++ out)
      | none => .error .assertionError

/-! ## Stop-word postprocessing (`cat_agent/llm/base/postprocessing.py`) -/

/-- `_truncate_at_stop_word` (postprocessing.py:67-74): for each stop word in
list order, cut the (already cut) text at its first occurrence; the flag
records whether any cut happened. -/
def truncateAtStopWordGo (truncated : Bool) (text : String) : List String → Bool × String
  | [] => (truncated, text)
  | s :: rest =>
    match pyFind text s with
    | some k => truncateAtStopWordGo true (pyTake text k) rest
    | none => truncateAtStopWordGo truncated text rest

def truncateAtStopWord (text : String) (stop : List String) : Bool × String :=
  truncateAtStopWordGo false text stop

/-- Inner item loop of `postprocess_stop_words` (postprocessing.py:31-39):
each text item is replaced by its stop-word truncation; the loop breaks after
the first item in which a stop word occurred, dropping the rest. -/
def truncItems (stop : List String) : List ContentItem → Bool × List ContentItem
  | [] => (false, [])
  | .text s :: rest =>
    let (tr, s') := truncateAtStopWord s stop
    if tr then (true, [.text s'])
    else
      let (tr2, rest') := truncItems stop rest
      (tr2, .text s' :: rest')
  | .other :: rest =>
    let (tr2, rest') := truncItems stop rest
    (tr2, .other :: rest')

/-- Outer message loop (postprocessing.py:29-44): every message's content is
rebuilt as the (possibly truncated) item list; messages after the first
truncated one are dropped. -/
def truncPhase (stop : List String) : List Message → List Message
  | [] => []
  | m :: rest =>
    let (truncated, items') := truncItems stop (contentItems m.content)
    let m' := { m with content := .items items' }
    if truncated then [m'] else m' :: truncPhase stop rest

/-- `partial_stop` (postprocessing.py:47-52): for each stop word, the
detokenization of its tokens minus the last, kept when the remaining token
list is non-empty; deduplicated and sorted. -/
def partialStops (tok : Tokenizer) (stop : List String) : List String :=
  sortedDedupStr (stop.filterMap (fun s =>
    let ts := (tok.tokenize s).dropLast
    if ts = [] then none else some (tok.convertTokensToString ts)))

/-- Inner partial-stop loop (postprocessing.py:59-61): each matching partial
stop rewrites the item text from the ORIGINAL text (`item_text` is not
re-read), so the last matching partial in sorted order wins. -/
def applyTrim (partials : List String) (t : String) : String :=
  partials.foldl (fun acc p => if pyEndsWith t p then pySliceNeg t p.length else acc) t

/-- Backwards scan of the last message's items (postprocessing.py:56-62),
acting on the REVERSED item list: the first text item from the end is
trimmed, then the scan breaks. -/
def trimItemsRev (partials : List String) : List ContentItem → List ContentItem
  | [] => []
  | .text s :: rest => .text (applyTrim partials s) :: rest
  | .other :: rest => .other :: trimItemsRev partials rest

/-- `postprocess_stop_words` (postprocessing.py:22-64).  Value semantics model
the initial deepcopy. -/
def postprocessStopWords (tok : Tokenizer) (messages : List Message) (stop : List String) :
    List Message :=
  if messages = [] then messages
  else
    let truncMsgs := truncPhase stop messages
    let partials := partialStops tok stop
    match truncMsgs.getLast? with
    | none => truncMsgs
    | some last =>
      truncMsgs.dropLast ++
        [{ last with
           content := .items ((trimItemsRev partials (contentItems last.content).reverse).reverse) }]

/-! ### The claim's reading of `postprocess_stop_words`

`postprocessStopWordsClaim` follows the words of claim C2: the first text
part containing any stop word is cut at the EARLIEST occurrence of ANY stop
word (minimum index over all stop words), later parts and messages are
dropped, and when no stop word occurs anywhere the messages are returned
unchanged. -/

/-- Minimum over all stop words of the first-occurrence index in `t`. -/
def minStopIdx (stop : List String) (t : String) : Option Nat :=
  stop.foldl (fun acc s =>
    match pyFind t s, acc with
    | some k, some j => some (min j k)
    | some k, none => some k
    | none, a => a) none

def truncItemsClaim (stop : List String) : List ContentItem → Bool × List ContentItem
  | [] => (false, [])
  | .text s :: rest =>
    match minStopIdx stop s with
    | some k => (true, [.text (pyTake s k)])
    | none =>
      let (tr2, rest') := truncItemsClaim stop rest
      (tr2, .text s :: rest')
  | .other :: rest =>
    let (tr2, rest') := truncItemsClaim stop rest
    (tr2, .other :: rest')

def postprocessStopWordsClaim (tok : Tokenizer) (messages : List Message)
    (stop : List String) : List Message :=
  match messages with
  | [] => []
  | m :: rest =>
    let (truncated, items') := truncItemsClaim stop (contentItems m.content)
    if truncated then [{ m with content := .items items' }]
    else { m with content := .items items' } :: postprocessStopWordsClaim tok rest stop

/-! ### The amended description of `postprocess_stop_words`

`postprocessStopWordsSpec` follows the amended claim: the cut position of the
first text part containing a stop word is obtained by scanning stop words in
list order, each cutting at its first occurrence within the already-cut text;
parts after the cut and later messages are dropped; afterwards the last text
part of the final message loses one trailing partial stop word — the last
matching one in sorted order — if it ends with one; a message list without
stop-word occurrences is returned otherwise unchanged. -/

/-- Whether any stop word occurs in the (original) text. -/
def specHasStop (stop : List String) (t : String) : Bool :=
  stop.any (fun s => (pyFind t s).isSome)

/-- The iterated cut: each stop word in list order cuts at its first
occurrence within the text as cut so far. -/
def specCut (stop : List String) (t : String) : String :=
  stop.foldl (fun acc s =>
    match pyFind acc s with
    | some k => pyTake acc k
    | none => acc) t

def specTruncItems (stop : List String) : List ContentItem → Bool × List ContentItem
  | [] => (false, [])
  | .text s :: rest =>
    if specHasStop stop s then (true, [.text (specCut stop s)])
    else
      let r := specTruncItems stop rest
      (r.1, .text s :: r.2)
  | .other :: rest =>
    let r := specTruncItems stop rest
    (r.1, .other :: r.2)

def specTruncMsgs (stop : List String) : List Message → List Message
  | [] => []
  | m :: rest =>
    let r := specTruncItems stop (contentItems m.content)
    if r.1 then [{ m with content := .items r.2 }]
    else { m with content := .items r.2 } :: specTruncMsgs stop rest

/-- Trimming, spec reading: the original text is rewritten by the LAST
matching partial stop in sorted order, if any matches. -/
def specApplyTrim (partials : List String) (t : String) : String :=
  match (partials.filter (fun p => pyEndsWith t p)).getLast? with
  | none => t
  | some p => pySliceNeg t p.length

/-- Split an item list around its last text item. -/
def splitLastText : List ContentItem → Option (List ContentItem × String × List ContentItem)
  | [] => none
  | .text s :: rest =>
    match splitLastText rest with
    | some (pre, t, post) => some (.text s :: pre, t, post)
    | none => some ([], s, rest)
  | .other :: rest =>
    match splitLastText rest with
    | some (pre, t, post) => some (.other :: pre, t, post)
    | none => none

/-- Trim the last text part, if any. -/
def specTrimItems (partials : List String) (l : List ContentItem) : List ContentItem :=
  match splitLastText l with
  | none => l
  | some (pre, t, post) => pre ++ [.text (specApplyTrim partials t)] ++ post

def postprocessStopWordsSpec (tok : Tokenizer) (messages : List Message)
    (stop : List String) : List Message :=
  if messages = [] then messages
  else
    let truncMsgs := specTruncMsgs stop messages
    let partials := partialStops tok stop
    match truncMsgs.getLast? with
    | none => truncMsgs
    | some last =>
      truncMsgs.dropLast ++
        [{ last with content := .items (specTrimItems partials (contentItems last.content)) }]

/-! ## Conversation shape predicates used by the claims -/

/-- The claim's well-formedness: at most one system message, and only in
first position. -/
def sysOnlyFirst : List Message → Bool
  | [] => true
  | _ :: rest => rest.all (fun m => ¬ m.role = .system)

/-- Total token count over ALL messages (system included), as in claim C6. -/
def totalTokens (tok : Tokenizer) (messages : List Message) : Nat :=
  (messages.map (countTokensMsg tok)).sum

/-- The tool-call pairing consequence used by the budget theorem: a
tool-result (function) message never directly follows a user message. -/
def noFnAfterUser : List Message → Bool
  | [] => true
  | [_] => true
  | a :: b :: rest =>
    (¬ (a.role = .user ∧ b.role = .function)) && noFnAfterUser (b :: rest)

/-! ## Retry with backoff (`cat_agent/llm/base/retry.py`) -/

/-- A `ModelServiceError` raised by the wrapped service call: its `code`
field and the text of `str(e)` (the substring checks are on `str(e)`). -/
structure SvcError where
  code : Option String
  text : String
  deriving DecidableEq, Repr

/-- Terminal outcomes of the retry loop: a re-raised service error, or the
generic "Maximum number of retries (n) exceeded." error. -/
inductive RetryErr where
  | svc (e : SvcError)
  | exhausted (maxRetries : Int)
  deriving DecidableEq, Repr

/-- The four non-retryable conditions (retry.py:56-64). -/
def nonRetryable (e : SvcError) : Bool :=
  e.code = some "400" ∨ e.code = some "DataInspectionFailed" ∨
    containsSubstr e.text "inappropriate content" ∨
    containsSubstr e.text "maximum context length"

/-- `_raise_or_delay` (retry.py:42-75) with `max_delay = 300.0` and
`exponential_base = 2.0` (the defaults, never overridden), and the drawn
jitter `1.0 + random.random()` passed as a parameter.  On success returns the
incremented retry count and the new delay — which is also the duration slept. -/
def raiseOrDelay (e : SvcError) (numRetries : Nat) (delay : ℚ) (maxRetries : Int)
    (jitter : ℚ) : Except RetryErr (Nat × ℚ) :=
  if maxRetries ≤ 0 then .error (.svc e)
  else if nonRetryable e then .error (.svc e)
  else if maxRetries ≤ (numRetries : Int) then .error (.exhausted maxRetries)
  else .ok (numRetries + 1, min (delay * 2) 300 * jitter)

/-- The `while True` loop of `retry_model_service` (retry.py:17-22).  The
callable is modelled by its outcome at each attempt and the random draws by
`jit` (indexed by the retry counter); `_raise_or_delay` is inlined so the
recursion is visibly bounded by `max_retries - num_retries`.  Returns the
outcome, the number of invocations of `fn`, and the slept delays in order. -/
def retryGo {α : Type} (fn : Nat → Except SvcError α) (jit : Nat → ℚ) (maxRetries : Int)
    (attempt numRetries : Nat) (delay : ℚ) (sleeps : List ℚ) :
    Except RetryErr α × Nat × List ℚ :=
  match fn attempt with
  | .ok v => (.ok v, attempt + 1, sleeps.reverse)
  | .error e =>
    if maxRetries ≤ 0 then (.error (.svc e), attempt + 1, sleeps.reverse)
    else if nonRetryable e then (.error (.svc e), attempt + 1, sleeps.reverse)
    else if h : maxRetries ≤ (numRetries : Int) then
      (.error (.exhausted maxRetries), attempt + 1, sleeps.reverse)
    else
      let d := min (delay * 2) 300 * jit numRetries
      retryGo fn jit maxRetries (attempt + 1) (numRetries + 1) d (d :: sleeps)
  termination_by maxRetries.toNat - numRetries
  decreasing_by
    simp only [not_le] at h
    omega

/-- `retry_model_service` (retry.py:10-22): retry counter 0, delay 1.0. -/
def retryModelService {α : Type} (fn : Nat → Except SvcError α) (jit : Nat → ℚ)
    (maxRetries : Int) : Except RetryErr α × Nat × List ℚ :=
  retryGo fn jit maxRetries 0 0 1 []

/-- The delay sequence described by the spec: `delaySeq jit 0 = 1` is the
initial delay, and the n-th sleep lasts `delaySeq jit (n+1)`. -/
def delaySeq (jit : Nat → ℚ) : Nat → ℚ
  | 0 => 1
  | n + 1 => min (delaySeq jit n * 2) 300 * jit n

/-! ## Token-sum observables used by the budget claims -/

/-- Actual token count of a returned slot (`none` slots carry no text). -/
def outTokens (tok : Tokenizer) (l : List (Option Message)) : Nat :=
  (l.map (fun om => (om.map (countTokensMsg tok)).getD 0)).sum

/-- Adjusted token count: a message whose content was replaced by the `'omit'`
placeholder is counted as the algorithm accounts it — zero tokens. -/
def adjCount (tok : Tokenizer) (m : Message) : Nat :=
  if m.content = .str "omit" then 0 else countTokensMsg tok m

def adjCountOpt (tok : Tokenizer) : Option Message → Nat
  | none => 0
  | some m => adjCount tok m

def adjSum (tok : Tokenizer) (l : List (Option Message)) : Nat :=
  (l.map (adjCountOpt tok)).sum

/-- Adjusted token sum over indexed option slots. -/
def adjSumPairs (tok : Tokenizer) (l : List (Nat × Option Message)) : Nat :=
  (l.map (fun p => adjCountOpt tok p.2)).sum

/-- Accounted token sum over indexed option slots. -/
def sumTokPairs (mt : Nat → Nat) (l : List (Nat × Option Message)) : Nat :=
  (l.map (fun p => mt p.1)).sum

/-- The shape of a turn produced by the truncator's partition under the
claims' well-formedness and the tool-call pairing invariant: the turn opens
with a user message, every later message is an assistant or tool-result
message, and the message directly after the user one (if any) is an
assistant message. -/
def turnShape : List (Nat × Message) → Prop
  | [] => False
  | (_, m0) :: rest =>
    m0.role = .user ∧
    (∀ p ∈ rest, p.2.role = .assistant ∨ p.2.role = .function) ∧
    (match rest with
     | [] => True
     | r :: _ => r.2.role = .assistant)

/-! ## Basic lemmas -/

theorem sysOnlyFirst_filter_le_one {messages : List Message}
    (h : sysOnlyFirst messages = true) :
    (messages.filter (fun m => m.role = .system)).length ≤ 1 := by
  cases messages with
  | nil => simp
  | cons m rest =>
    have hrest : rest.filter (fun m => m.role = .system) = [] := by
      rw [List.filter_eq_nil_iff]
      intro a ha
      simp only [sysOnlyFirst, List.all_eq_true] at h
      simpa using h a ha
    by_cases hm : m.role = .system <;> simp [List.filter_cons, hm, hrest]

theorem allTokensOf_nil (tok : Tokenizer) : allTokensOf tok [] = 0 := rfl

/-- Splitting the total token count into the system and non-system parts. -/
theorem totalTokens_split (tok : Tokenizer) (messages : List Message) :
    totalTokens tok messages =
      ((messages.filter (fun m => m.role = .system)).map (countTokensMsg tok)).sum +
        allTokensOf tok messages := by
  induction messages with
  | nil => rfl
  | cons m rest ih =>
    by_cases hm : m.role = .system <;>
      simp [totalTokens, allTokensOf, List.filter_cons, hm, totalTokens] at ih ⊢ <;>
      omega

/-! ## Claim C10 -/

/-- C10: for every `max_tokens`, `truncate_input_messages_roughly([], max_tokens)`
returns the empty list and raises no error. -/
theorem truncate_empty_passthrough (tok : Tokenizer) (maxTokens : Int) :
    truncateInputMessagesRoughly tok [] maxTokens = .ok [] := by
  simp [truncateInputMessagesRoughly]

/-! ## Claim C3 -/

/-- C3 (amended): `truncate_input_messages_roughly` raises `InvalidInput`
(`ModelServiceError` with code `'400'`) whenever the input contains two or
more system messages; a single system message that is not in first position
is NOT rejected (see the counterexample). -/
theorem truncate_two_system_invalid (tok : Tokenizer) (messages : List Message)
    (maxTokens : Int)
    (h : 2 ≤ (messages.filter (fun m => m.role = .system)).length) :
    truncateInputMessagesRoughly tok messages maxTokens = .error (.mse errTooManySystem) := by
  simp [truncateInputMessagesRoughly, h]

theorem truncate_two_system_invalid_witness :
    2 ≤ (([⟨.system, .str "a", none⟩, ⟨.system, .str "b", none⟩, ⟨.user, .str "q", none⟩] :
          List Message).filter (fun m => m.role = .system)).length ∧
    truncateInputMessagesRoughly charTok
        [⟨.system, .str "a", none⟩, ⟨.system, .str "b", none⟩, ⟨.user, .str "q", none⟩] 100 =
      .error (.mse errTooManySystem) :=
  ⟨by decide, truncate_two_system_invalid charTok _ 100 (by decide)⟩

/-- C3 counterexample: a conversation with exactly one system message that is
NOT first is returned unchanged (fast path) instead of raising `InvalidInput`. -/
theorem truncate_misplaced_system_counterexample :
    (([⟨.user, .str "a", none⟩, ⟨.system, .str "b", none⟩] : List Message).filter
        (fun m => m.role = .system)).length = 1 ∧
    (⟨.user, .str "a", none⟩ : Message).role ≠ .system ∧
    truncateInputMessagesRoughly charTok
        [⟨.user, .str "a", none⟩, ⟨.system, .str "b", none⟩] 100 =
      .ok [some ⟨.user, .str "a", none⟩, some ⟨.system, .str "b", none⟩] := by
  refine ⟨by decide, by decide, ?_⟩
  rfl

/-! ## Claim C4 -/

/-- C4 (amended): for a well-formed conversation, `truncate_input_messages_roughly`
fails with `BudgetExceeded` (a `ModelServiceError` whose message reports the
exceeded maximum input context length) whenever the remaining budget after
reserving the system message is ≤ 0 AND the non-system messages have positive
total token count; when that total is 0 (and the remaining budget is exactly
0) the no-op fast path returns the input instead of raising. -/
theorem truncate_budget_exceeded (tok : Tokenizer) (messages : List Message)
    (maxTokens : Int)
    (h1 : sysOnlyFirst messages = true)
    (h2 : firstNonSystemIsUser messages = true)
    (h3 : availableOf tok maxTokens messages ≤ 0)
    (h4 : 0 < allTokensOf tok messages) :
    truncateInputMessagesRoughly tok messages maxTokens = .error (.mse (errBudget maxTokens)) := by
  have hlen := sysOnlyFirst_filter_le_one h1
  have hne : messages ≠ [] := by
    intro h
    rw [h] at h4
    simp [allTokensOf_nil] at h4
  have hslow : ¬ ((allTokensOf tok messages : Int) ≤ availableOf tok maxTokens messages) := by
    omega
  simp only [truncateInputMessagesRoughly]
  rw [if_neg (by omega), if_neg hne, if_neg (by simp [h2]), if_neg hslow, if_pos h3]

theorem truncate_budget_exceeded_witness :
    sysOnlyFirst [(⟨.system, .str "ab", none⟩ : Message), ⟨.user, .str "c", none⟩] = true ∧
    firstNonSystemIsUser [(⟨.system, .str "ab", none⟩ : Message), ⟨.user, .str "c", none⟩] = true ∧
    availableOf charTok 2 [(⟨.system, .str "ab", none⟩ : Message), ⟨.user, .str "c", none⟩] ≤ 0 ∧
    0 < allTokensOf charTok [(⟨.system, .str "ab", none⟩ : Message), ⟨.user, .str "c", none⟩] ∧
    truncateInputMessagesRoughly charTok
        [⟨.system, .str "ab", none⟩, ⟨.user, .str "c", none⟩] 2 =
      .error (.mse (errBudget 2)) :=
  ⟨by decide, by decide, by decide, by decide,
   truncate_budget_exceeded charTok _ 2 (by decide) (by decide) (by decide) (by decide)⟩

/-- C4 counterexample: a conversation whose system message consumes the whole
budget (`max_tokens - token_count(system) = 0`) is returned by the fast path
when the remaining messages count zero tokens, instead of failing with
`BudgetExceeded`. -/
theorem truncate_budget_fastpath_counterexample :
    availableOf charTok 2 [(⟨.system, .str "ab", none⟩ : Message), ⟨.user, .str "", none⟩] ≤ 0 ∧
    truncateInputMessagesRoughly charTok
        [⟨.system, .str "ab", none⟩, ⟨.user, .str "", none⟩] 2 =
      .ok [some ⟨.system, .str "ab", none⟩, some ⟨.user, .str "", none⟩] := by
  refine ⟨by decide, ?_⟩
  rfl

/-! ## Claim C6 -/

theorem availableOf_eq {tok : Tokenizer} {maxTokens : Int} {messages : List Message}
    (h : (messages.filter (fun m => m.role = .system)).length ≤ 1) :
    availableOf tok maxTokens messages =
      maxTokens -
        ((messages.filter (fun m => m.role = .system)).map (countTokensMsg tok)).sum := by
  rcases hl : messages.filter (fun m => m.role = .system) with _ | ⟨x, _ | ⟨y, t⟩⟩
  · simp [availableOf, hl]
  · simp [availableOf, hl]
  · rw [hl] at h
    simp at h

/-- C6 (amended): for every input with at most one system message whose first
non-system message (if any) is a user message, if the total token count of
ALL messages is at most `max_tokens` then `truncate_input_messages_roughly`
returns exactly the input message list (no-op fast path); a malformed input
is rejected even under slack (see the counterexample). -/
theorem truncate_noop_under_slack (tok : Tokenizer) (messages : List Message)
    (maxTokens : Int)
    (h1 : (messages.filter (fun m => m.role = .system)).length ≤ 1)
    (h2 : firstNonSystemIsUser messages = true)
    (h3 : (totalTokens tok messages : Int) ≤ maxTokens) :
    truncateInputMessagesRoughly tok messages maxTokens = .ok (messages.map some) := by
  by_cases hne : messages = []
  · subst hne
    simp [truncateInputMessagesRoughly]
  · have hsplit := totalTokens_split tok messages
    have havail := @availableOf_eq tok maxTokens messages h1
    have hfast : (allTokensOf tok messages : Int) ≤ availableOf tok maxTokens messages := by
      omega
    simp only [truncateInputMessagesRoughly]
    rw [if_neg (by omega), if_neg hne, if_neg (by simp [h2]), if_pos hfast]

theorem truncate_noop_under_slack_witness :
    (([⟨.system, .str "s", none⟩, ⟨.user, .str "hello", none⟩] : List Message).filter
        (fun m => m.role = .system)).length ≤ 1 ∧
    firstNonSystemIsUser [(⟨.system, .str "s", none⟩ : Message), ⟨.user, .str "hello", none⟩] = true ∧
    (totalTokens charTok [(⟨.system, .str "s", none⟩ : Message), ⟨.user, .str "hello", none⟩] : Int) ≤ 100 ∧
    truncateInputMessagesRoughly charTok
        [⟨.system, .str "s", none⟩, ⟨.user, .str "hello", none⟩] 100 =
      .ok [some ⟨.system, .str "s", none⟩, some ⟨.user, .str "hello", none⟩] :=
  ⟨by decide, by decide, by decide,
   truncate_noop_under_slack charTok _ 100 (by decide) (by decide) (by decide)⟩

/-- C6 counterexample: an input whose total token count is within
`max_tokens` but which starts with an assistant message raises `InvalidInput`
instead of being returned unchanged — the claim's quantification over EVERY
input fails on malformed conversations. -/
theorem truncate_noop_counterexample :
    (totalTokens charTok [(⟨.assistant, .str "a", none⟩ : Message)] : Int) ≤ 100 ∧
    truncateInputMessagesRoughly charTok [⟨.assistant, .str "a", none⟩] 100 =
      .error (.mse errNotStartWithUser) := by
  refine ⟨by decide, ?_⟩
  rfl

/-! ## Claim C5 -/

/-- C5: oldest-first precedence.  (1) Any turn whose total token footprint is
at most the current exceedance is dropped in its entirety, with its full
footprint subtracted from the exceedance.  (2) Consequently, for a
conversation of two droppable single-message user turns A (older) and B
(newer) under a budget that fits exactly B, the result retains B and drops A. -/
theorem truncation_oldest_first_drop :
    (∀ (tok : Tokenizer) (pairs : List (Nat × Message)) (mt : Nat → Nat) (e : Int)
       (isLast : Bool),
       (turnTokens mt pairs : Int) ≤ e →
       truncateTurn tok pairs mt e isLast = some ([], e - turnTokens mt pairs)) ∧
    (∀ (tok : Tokenizer) (uA uB : Message) (maxTokens : Int),
       uA.role = .user → uB.role = .user →
       0 < countTokensMsg tok uA →
       0 < countTokensMsg tok uB →
       maxTokens = (countTokensMsg tok uB : Int) →
       truncateInputMessagesRoughly tok [uA, uB] maxTokens = .ok [some uB]) := by
  constructor
  · intro tok pairs mt e isLast h
    simp only [truncateTurn]
    rw [if_pos h]
  · intro tok uA uB maxTokens hA hB ha hb hm
    have hfilter : ([uA, uB] : List Message).filter (fun m => m.role = .system) = [] := by
      simp [List.filter_cons, hA, hB]
    have havail : availableOf tok maxTokens [uA, uB] = maxTokens := by
      simp [availableOf, hfilter]
    have hall : allTokensOf tok [uA, uB] = countTokensMsg tok uA + countTokensMsg tok uB := by
      simp [allTokensOf, List.filter_cons, hA, hB]
    have hturns : indexedTurns [uA, uB] = [[(0, uA)], [(1, uB)]] := by
      simp [indexedTurns, turnSplitAux, hA, hB]
    have hmt0 : msgTokensFn tok [uA, uB] 0 = countTokensMsg tok uA := by
      simp [msgTokensFn, hA]
    have hfnsu : firstNonSystemIsUser [uA, uB] = true := by
      simp [firstNonSystemIsUser, hA]
    simp only [truncateInputMessagesRoughly]
    rw [if_neg (by simp [hfilter]), if_neg (by simp), if_neg (by simp [hfnsu]),
      if_neg (by rw [hall, havail]; push_cast; omega), if_neg (by rw [havail]; omega)]
    rw [hfilter, hturns, hall, havail]
    simp only [processTurns]
    rw [if_neg (by push_cast; omega)]
    have hne : (([[(1, uB)]] : List (List (Nat × Message))) = []) = False := by simp
    simp only [hne]
    have htt : turnTokens (msgTokensFn tok [uA, uB]) [(0, uA)] = countTokensMsg tok uA := by
      simp [turnTokens, hmt0]
    simp only [truncateTurn, htt]
    rw [if_pos (by push_cast; omega)]
    simp only [processTurns]
    rw [if_pos (by push_cast; omega)]
    simp

theorem truncation_oldest_first_drop_witness :
    truncateTurn charTok [(0, ⟨.user, .str "aa", none⟩)] (fun _ => 2) 5 false = some ([], 3) ∧
    truncateInputMessagesRoughly charTok
        [⟨.user, .str "aa", none⟩, ⟨.user, .str "aaa", none⟩] 3 =
      .ok [some ⟨.user, .str "aaa", none⟩] := by
  constructor
  · have h := truncation_oldest_first_drop.1 charTok [(0, ⟨.user, .str "aa", none⟩)]
      (fun _ => 2) 5 false (by decide)
    have he : (5 : Int) - (turnTokens (fun _ => 2) [(0, (⟨.user, .str "aa", none⟩ : Message))] : Int) = 3 := by
      decide
    rw [he] at h
    exact h
  · exact truncation_oldest_first_drop.2 charTok _ _ 3 rfl rfl (by decide) (by decide) (by decide)

/-! ## Claims C9 and C7: retry loop -/

/-- Exhaustion run of the retry loop: from retry counter `k` with the
schedule-consistent delay, an always-failing retryable callable drives the
loop through `m - k` further sleeps to the terminal error, having invoked the
callable once per iteration. -/
theorem retryGo_exhaust {α : Type} (fn : Nat → Except SvcError α) (jit : Nat → ℚ)
    (e : SvcError) (m : Int) (hm : 0 < m)
    (hfn : ∀ i, fn i = .error e) (hnr : nonRetryable e = false) :
    ∀ (n : Nat) (a k : Nat) (s : List ℚ), n = m.toNat - k → (k : Int) ≤ m →
      retryGo fn jit m a k (delaySeq jit k) s =
        (.error (.exhausted m), a + n + 1,
         s.reverse ++ (List.range n).map (fun i => delaySeq jit (k + i + 1))) := by
  intro n
  induction n with
  | zero =>
    intro a k s hn hk
    rw [retryGo, hfn a]
    dsimp only
    rw [if_neg (by omega), if_neg (by simp [hnr]), dif_pos (by omega)]
    simp
  | succ n ih =>
    intro a k s hn hk
    rw [retryGo, hfn a]
    dsimp only
    rw [if_neg (by omega), if_neg (by simp [hnr]), dif_neg (by omega)]
    have hd : min (delaySeq jit k * 2) 300 * jit k = delaySeq jit (k + 1) := by
      simp [delaySeq]
    rw [hd]
    rw [ih (a + 1) (k + 1) (delaySeq jit (k + 1) :: s) (by omega) (by omega)]
    have hcnt : a + 1 + n + 1 = a + (n + 1) + 1 := by omega
    rw [hcnt]
    have hlist : (delaySeq jit (k + 1) :: s).reverse ++
          (List.range n).map (fun i => delaySeq jit (k + 1 + i + 1)) =
        s.reverse ++ (List.range (n + 1)).map (fun i => delaySeq jit (k + i + 1)) := by
      rw [List.range_succ_eq_map]
      simp [List.map_map, Function.comp]
      intro i _
      congr 1
      omega
    rw [hlist]

/-- C9: for a callable that always raises a retryable `ServiceError` and any
`max_retries > 0`, `retry_model_service` invokes the callable exactly
`max_retries + 1` times and then raises the terminal "maximum number of
retries exceeded" error. -/
theorem retry_exhaustion_claim (α : Type) (fn : Nat → Except SvcError α) (jit : Nat → ℚ)
    (e : SvcError) (m : Nat) (hm : 0 < m) (hfn : ∀ i, fn i = .error e)
    (hnr : nonRetryable e = false) :
    (retryModelService fn jit (m : Int)).1 = .error (.exhausted m) ∧
    (retryModelService fn jit (m : Int)).2.1 = m + 1 := by
  have h := retryGo_exhaust fn jit e (m : Int) (by exact_mod_cast hm) hfn hnr m 0 0 []
    (by omega) (by positivity)
  rw [retryModelService]
  have h1 : (1 : ℚ) = delaySeq jit 0 := rfl
  rw [h1, h]
  simp

theorem retry_exhaustion_witness :
    (retryModelService
        (fun _ => (.error ⟨some "500", "service unavailable"⟩ : Except SvcError Nat))
        (fun _ => 3/2) 3).1 = .error (.exhausted 3) ∧
    (retryModelService
        (fun _ => (.error ⟨some "500", "service unavailable"⟩ : Except SvcError Nat))
        (fun _ => 3/2) 3).2.1 = 3 + 1 := by
  have h := retry_exhaustion_claim Nat (fun _ => .error ⟨some "500", "service unavailable"⟩)
    (fun _ => 3/2) ⟨some "500", "service unavailable"⟩ 3 (by decide) (fun _ => rfl) (by decide)
  exact ⟨h.1, h.2⟩

/-- C7: the retry wrapper's backoff schedule.  In `_raise_or_delay` a retry
step multiplies the delay by the base 2.0, caps it at the ceiling 300.0, then
multiplies by the drawn jitter, and sleeps the result (which becomes the next
delay); the delay starts at 1.0 (`delaySeq jit 0 = 1`), so the run of an
always-failing retryable callable sleeps exactly
`delaySeq jit 1, ..., delaySeq jit max_retries`, with the jitter a
quantified parameter drawn from `[1.0, 2.0)`. -/
theorem retry_backoff_schedule_claim :
    (∀ (e : SvcError) (n : Nat) (d : ℚ) (m : Int) (j : ℚ),
        ¬ m ≤ 0 → nonRetryable e = false → (n : Int) < m →
        raiseOrDelay e n d m j = .ok (n + 1, min (d * 2) 300 * j)) ∧
    (∀ (α : Type) (fn : Nat → Except SvcError α) (jit : Nat → ℚ) (e : SvcError) (m : Nat),
        0 < m → (∀ i, fn i = .error e) → nonRetryable e = false →
        (∀ i, 1 ≤ jit i ∧ jit i < 2) →
        delaySeq jit 0 = 1 ∧
        (retryModelService fn jit (m : Int)).2.2 =
          (List.range m).map (fun i => delaySeq jit (i + 1))) := by
  constructor
  · intro e n d m j h1 h2 h3
    rw [raiseOrDelay, if_neg h1, if_neg (by simp [h2]), if_neg (by omega)]
  · intro α fn jit e m hm hfn hnr hjit
    refine ⟨rfl, ?_⟩
    have h := retryGo_exhaust fn jit e (m : Int) (by exact_mod_cast hm) hfn hnr m 0 0 []
      (by omega) (by positivity)
    rw [retryModelService]
    have h1 : (1 : ℚ) = delaySeq jit 0 := rfl
    rw [h1, h]
    simp

theorem retry_backoff_schedule_witness :
    raiseOrDelay ⟨some "500", "boom"⟩ 0 1 2 (3/2) = .ok (1, min (1 * 2) 300 * (3/2)) ∧
    (retryModelService (fun _ => (.error ⟨some "500", "boom"⟩ : Except SvcError Nat))
        (fun _ => 3/2) 2).2.2 = [3, 9] := by
  constructor
  · exact retry_backoff_schedule_claim.1 ⟨some "500", "boom"⟩ 0 1 2 (3/2)
      (by norm_num) (by decide) (by norm_num)
  · have h := retry_backoff_schedule_claim.2 Nat (fun _ => .error ⟨some "500", "boom"⟩)
      (fun _ => 3/2) ⟨some "500", "boom"⟩ 2 (by decide) (fun _ => rfl) (by decide)
      (fun _ => by norm_num)
    have h2 := h.2
    norm_cast at h2
    rw [h2]
    norm_num [delaySeq, List.range_succ, min_def]

/-! ## Claim C8: partial-stop-word trimming -/

theorem applyTrim_no_match {partials : List String} {t : String}
    (h : ∀ p ∈ partials, pyEndsWith t p = false) : applyTrim partials t = t := by
  induction partials with
  | nil => rfl
  | cons p ps ih =>
    have hp := h p (by simp)
    simp only [applyTrim, List.foldl_cons, hp]
    simp only [Bool.false_eq_true, if_false]
    exact ih (fun q hq => h q (by simp [hq]))

theorem pyEndsWith_decomp {t p : String} (hp : p ≠ "") (h : pyEndsWith t p = true) :
    t = pySliceNeg t p.length ++ p := by
  have hsuf : p.data <:+ t.data := List.isSuffixOf_iff_suffix.mp h
  obtain ⟨pre, hpre⟩ := hsuf
  cases t with
  | mk td =>
    cases p with
    | mk pd =>
      have hlen : pd.length ≠ 0 := by
        intro h0
        rw [List.length_eq_zero] at h0
        subst h0
        exact hp rfl
      have hpre' : pre ++ pd = td := hpre
      have htake : td.take (td.length - pd.length) = pre := by
        rw [← hpre']
        simp
      simp only [pySliceNeg, String.length]
      rw [if_neg hlen]
      show String.mk td = String.mk (td.take (td.length - pd.length) ++ pd)
      rw [htake, hpre']

/-- When no stop word occurs, the single message passes the truncation phase
unchanged and only partial-stop trimming applies to its text. -/
theorem postprocess_single_no_stop (tok : Tokenizer) (role : Role) (fc : Option String)
    (t s : String) (hocc : pyFind t s = none) :
    postprocessStopWords tok [⟨role, .items [.text t], fc⟩] [s] =
      [⟨role, .items [.text (applyTrim (partialStops tok [s]) t)], fc⟩] := by
  simp [postprocessStopWords, truncPhase, truncItems, contentItems, truncateAtStopWord,
    truncateAtStopWordGo, hocc, trimItemsRev]

/-- C8: after stop-word truncation (here: a message without stop-word
occurrence), `postprocess_stop_words` strips from the very end of the last
surviving text part exactly a suffix equal to the partial stop word — the
detokenization of the stop word's tokens with the last removed — and leaves
a trailing text not equal to such a suffix intact. -/
theorem partial_stop_trimming (tok : Tokenizer) (role : Role) (fc : Option String)
    (t s : String) (hocc : pyFind t s = none) :
    ((∀ p ∈ partialStops tok [s], pyEndsWith t p = false) →
      postprocessStopWords tok [⟨role, .items [.text t], fc⟩] [s] =
        [⟨role, .items [.text t], fc⟩]) ∧
    (∀ p, partialStops tok [s] = [p] → p ≠ "" → pyEndsWith t p = true →
      t = pySliceNeg t p.length ++ p ∧
      postprocessStopWords tok [⟨role, .items [.text t], fc⟩] [s] =
        [⟨role, .items [.text (pySliceNeg t p.length)], fc⟩]) := by
  constructor
  · intro hno
    rw [postprocess_single_no_stop tok role fc t s hocc, applyTrim_no_match hno]
  · intro p hps hp hends
    refine ⟨pyEndsWith_decomp hp hends, ?_⟩
    rw [postprocess_single_no_stop tok role fc t s hocc, hps]
    simp [applyTrim, hends]

theorem partial_stop_trimming_witness :
    pyFind "now Observation" "Observation:" = none ∧
    partialStops charTok ["Observation:"] = ["Observation"] ∧
    postprocessStopWords charTok [⟨.assistant, .items [.text "now Observation"], none⟩]
        ["Observation:"] = [⟨.assistant, .items [.text "now "], none⟩] := by
  refine ⟨by decide, by decide, ?_⟩
  have h := (partial_stop_trimming charTok .assistant none "now Observation" "Observation:"
    (by decide)).2 "Observation" (by decide) (by decide) (by decide)
  exact h.2.trans (by decide)

/-! ## Claim C2: stop-word truncation -/

theorem truncateAtStopWordGo_spec (stop : List String) :
    ∀ (b : Bool) (t : String),
      truncateAtStopWordGo b t stop = (b || specHasStop stop t, specCut stop t) := by
  induction stop with
  | nil => intro b t; simp [truncateAtStopWordGo, specHasStop, specCut]
  | cons s rest ih =>
    intro b t
    cases hf : pyFind t s with
    | some k =>
      simp only [truncateAtStopWordGo, hf, ih, specHasStop, specCut, List.any_cons,
        List.foldl_cons, Option.isSome_some, Bool.true_or, Bool.or_true]
    | none =>
      simp only [truncateAtStopWordGo, hf, ih, specHasStop, specCut, List.any_cons,
        List.foldl_cons, Option.isSome_none, Bool.false_or]

theorem specCut_no_stop {stop : List String} {t : String}
    (h : specHasStop stop t = false) : specCut stop t = t := by
  induction stop with
  | nil => rfl
  | cons s rest ih =>
    simp only [specHasStop, List.any_cons, Bool.or_eq_false_iff] at h
    have hf : pyFind t s = none := by
      cases hf : pyFind t s with
      | some k => rw [hf] at h; simp at h
      | none => rfl
    simp only [specCut, List.foldl_cons, hf]
    exact ih (by simpa [specHasStop] using h.2)

theorem truncItems_spec (stop : List String) :
    ∀ l : List ContentItem, truncItems stop l = specTruncItems stop l := by
  intro l
  induction l with
  | nil => rfl
  | cons it rest ih =>
    cases it with
    | text s =>
      have hgo : truncateAtStopWord s stop = (specHasStop stop s, specCut stop s) := by
        simpa [truncateAtStopWord] using truncateAtStopWordGo_spec stop false s
      cases hh : specHasStop stop s with
      | true =>
        simp [truncItems, specTruncItems, hgo, hh]
      | false =>
        simp [truncItems, specTruncItems, hgo, hh, ih, specCut_no_stop hh]
    | other =>
      simp [truncItems, specTruncItems, ih]

theorem truncPhase_spec (stop : List String) :
    ∀ messages : List Message, truncPhase stop messages = specTruncMsgs stop messages := by
  intro messages
  induction messages with
  | nil => rfl
  | cons m rest ih =>
    simp only [truncPhase, specTruncMsgs, truncItems_spec]
    cases hh : (specTruncItems stop (contentItems m.content)).1 <;> simp [hh, ih]

theorem applyTrim_spec (t : String) :
    ∀ partials : List String, applyTrim partials t = specApplyTrim partials t := by
  intro partials
  induction partials using List.reverseRecOn with
  | nil => rfl
  | append_singleton ps p ih =>
    simp only [applyTrim, List.foldl_append, List.foldl_cons, List.foldl_nil]
    cases hp : pyEndsWith t p with
    | true =>
      simp only [hp, if_true, specApplyTrim, List.filter_append, List.filter_cons, hp]
      simp
    | false =>
      simp only [hp, Bool.false_eq_true, if_false, specApplyTrim, List.filter_append,
        List.filter_cons, hp]
      simp only [List.filter_nil, List.append_nil]
      exact ih

theorem splitLastText_append_text (l : List ContentItem) (s : String) :
    splitLastText (l ++ [.text s]) = some (l, s, []) := by
  induction l with
  | nil => rfl
  | cons it rest ih =>
    cases it <;> simp [splitLastText, ih]

theorem splitLastText_append_other (l : List ContentItem) :
    splitLastText (l ++ [.other]) =
      match splitLastText l with
      | some (pre, t, post) => some (pre, t, post ++ [.other])
      | none => none := by
  induction l with
  | nil => rfl
  | cons it rest ih =>
    have ih' : splitLastText (rest.append [ContentItem.other]) =
        match splitLastText rest with
        | some (pre, t, post) => some (pre, t, post ++ [.other])
        | none => none := ih
    cases it with
    | text s =>
      simp only [List.cons_append, splitLastText, ih']
      cases h : splitLastText rest with
      | some x => rcases x with ⟨pre, t, post⟩; rfl
      | none => rfl
    | other =>
      simp only [List.cons_append, splitLastText, ih']
      cases h : splitLastText rest with
      | some x => rcases x with ⟨pre, t, post⟩; rfl
      | none => rfl

theorem trimItemsRev_spec (partials : List String) :
    ∀ r : List ContentItem,
      (trimItemsRev partials r).reverse = specTrimItems partials r.reverse := by
  intro r
  induction r with
  | nil => rfl
  | cons it rest ih =>
    cases it with
    | text s =>
      simp only [trimItemsRev, List.reverse_cons, specTrimItems, splitLastText_append_text]
      simp [applyTrim_spec]
    | other =>
      simp only [trimItemsRev, List.reverse_cons, specTrimItems, splitLastText_append_other]
      rw [specTrimItems] at ih
      cases h : splitLastText rest.reverse with
      | some x =>
        rcases x with ⟨pre, t, post⟩
        rw [h] at ih
        simp only [ih]
        simp
      | none =>
        rw [h] at ih
        simp only [ih]

/-- C2 (amended): `postprocess_stop_words` truncates the first text content
part in which any stop word occurs, with the cut obtained by scanning stop
words IN LIST ORDER, each cutting at its first occurrence within the
already-cut text (not always the global minimum index over all stop words —
see the counterexample); it drops every content part after the cut and every
later message; and it then strips one trailing partial stop word from the
last text part of the final message (the last matching one in sorted order),
which can alter the output even when no stop word occurs; apart from that
trimming, a message list without stop-word occurrences is returned
unchanged.  Stated as: the embedding of the code equals the function
`postprocessStopWordsSpec` written from this amended description. -/
theorem postprocess_stop_words_spec (tok : Tokenizer) (messages : List Message)
    (stop : List String) :
    postprocessStopWords tok messages stop = postprocessStopWordsSpec tok messages stop := by
  simp only [postprocessStopWords, postprocessStopWordsSpec, truncPhase_spec]
  by_cases h : messages = []
  · simp [h]
  · rw [if_neg h, if_neg h]
    cases hl : (specTruncMsgs stop messages).getLast? with
    | none => rfl
    | some last =>
      have := trimItemsRev_spec (partialStops tok stop) (contentItems last.content).reverse
      rw [List.reverse_reverse] at this
      dsimp only
      rw [this]

/-- C2 counterexample: with stop words `["XYZ", "vwXY"]` and text
`"uvwXYZq"`, the code cuts at index 3 (the iterated scan misses the
occurrence of `"vwXY"` at index 1, which straddles the first cut), yielding
`"uvw"`; the claim's minimum-index cut would yield `"u"`. -/
theorem postprocess_minindex_counterexample :
    postprocessStopWords charTok [⟨.assistant, .items [.text "uvwXYZq"], none⟩]
        ["XYZ", "vwXY"] = [⟨.assistant, .items [.text "uvw"], none⟩] ∧
    postprocessStopWordsClaim charTok [⟨.assistant, .items [.text "uvwXYZq"], none⟩]
        ["XYZ", "vwXY"] = [⟨.assistant, .items [.text "u"], none⟩] ∧
    ([(⟨.assistant, .items [.text "uvw"], none⟩ : Message)] ≠
      [(⟨.assistant, .items [.text "u"], none⟩ : Message)]) := by
  refine ⟨by decide, by decide, by decide⟩

end CatAgent
namespace CatAgent

theorem adjCount_le (tok : Tokenizer) (m : Message) :
    adjCount tok m ≤ countTokensMsg tok m := by
  rw [adjCount]
  split <;> omega

theorem adjCount_omit (tok : Tokenizer) (m : Message) :
    adjCount tok { m with content := .str "omit" } = 0 := rfl

theorem adjCountOpt_truncateMessage {tok : Tokenizer} (ht : tok.TruncBound)
    (m : Message) (mx : Int) (b : Bool) (hmx : 0 ≤ mx) :
    (adjCountOpt tok (truncateMessage tok m mx b) : Int) ≤ mx := by
  rw [truncateMessage]
  cases hc : m.content with
  | str s =>
    dsimp only
    rw [adjCountOpt, adjCount]
    split
    · simpa
    · simpa [countTokensMsg, extractText] using ht s mx b hmx
  | items l =>
    dsimp only
    by_cases ha : l.any (fun it => itemText it = "")
    · simp [ha, adjCountOpt]
      omega
    · rw [if_neg ha]
      rw [adjCountOpt, adjCount]
      split
      · simpa
      · simpa [countTokensMsg, extractText] using
          ht (String.intercalate "\n" (l.map itemText)) mx b hmx

theorem adjSumPairs_le_sumTok {tok : Tokenizer} {mt : Nat → Nat}
    {l : List (Nat × Option Message)}
    (h : ∀ p ∈ l, adjCountOpt tok p.2 ≤ mt p.1) :
    adjSumPairs tok l ≤ sumTokPairs mt l := by
  induction l with
  | nil => simp [adjSumPairs, sumTokPairs]
  | cons p rest ih =>
    have h1 := h p (by simp)
    have h2 := ih (fun q hq => h q (by simp [hq]))
    simp only [adjSumPairs, sumTokPairs, List.map_cons, List.sum_cons] at h2 ⊢
    omega

end CatAgent
namespace CatAgent
theorem adjSumPairs_cons (tok : Tokenizer) (p : Nat × Option Message)
    (l : List (Nat × Option Message)) :
    adjSumPairs tok (p :: l) = adjCountOpt tok p.2 + adjSumPairs tok l := by
  simp [adjSumPairs]

theorem sumTokPairs_cons (mt : Nat → Nat) (p : Nat × Option Message)
    (l : List (Nat × Option Message)) :
    sumTokPairs mt (p :: l) = mt p.1 + sumTokPairs mt l := by
  simp [sumTokPairs]

theorem step4Go_bound {tok : Tokenizer} (ht : tok.TruncBound) (mt : Nat → Nat) :
    ∀ (K : List (Nat × Option Message)) (e : Int),
      0 ≤ e →
      (∀ p ∈ K, adjCountOpt tok p.2 ≤ mt p.1) →
      (adjSumPairs tok (step4Go tok mt K e) : Int) ≤ max ((sumTokPairs mt K : Int) - e) 0 := by
  intro K
  induction K with
  | nil =>
    intro e he hpw
    simp [step4Go, adjSumPairs, sumTokPairs]
  | cons p rest ih =>
    intro e he hpw
    obtain ⟨idx, om⟩ := p
    rw [step4Go]
    by_cases hlt : e < (mt idx : Int)
    · rw [if_pos hlt]
      have h1 : (adjCountOpt tok
          (om.bind (fun m => truncateMessage tok m ((mt idx : Int) - e) true)) : Int) ≤
          (mt idx : Int) - e := by
        cases om with
        | none =>
          have hz : adjCountOpt tok
              (Option.bind none (fun m => truncateMessage tok m ((mt idx : Int) - e) true)) = 0 := rfl
          rw [hz]
          omega
        | some m => exact adjCountOpt_truncateMessage ht m _ true (by omega)
      have h2 : adjSumPairs tok rest ≤ sumTokPairs mt rest :=
        adjSumPairs_le_sumTok (fun q hq => hpw q (by simp [hq]))
      have h2i : (adjSumPairs tok rest : Int) ≤ (sumTokPairs mt rest : Int) := by
        exact_mod_cast h2
      refine le_trans ?_ (le_max_left _ _)
      simp only [adjSumPairs_cons, sumTokPairs_cons]
      push_cast
      omega
    · rw [if_neg hlt]
      have h0 : adjCountOpt tok
          (om.map (fun m => { m with content := MsgContent.str "omit" })) = 0 := by
        cases om with
        | none => rfl
        | some m => rfl
      have hrec := ih (e - mt idx) (by omega) (fun q hq => hpw q (by simp [hq]))
      have harith : (sumTokPairs mt rest : Int) - (e - mt idx) =
          (sumTokPairs mt ((idx, om) :: rest) : Int) - e := by
        simp only [sumTokPairs_cons]
        push_cast
        ring
      rw [harith] at hrec
      simp only [adjSumPairs_cons, h0, Nat.zero_add]
      exact hrec
end CatAgent
namespace CatAgent
theorem turnTokens_cons (mt : Nat → Nat) (p : Nat × Message) (l : List (Nat × Message)) :
    turnTokens mt (p :: l) = mt p.1 + turnTokens mt l := by
  simp [turnTokens]

theorem turnTokens_updFn {mt : Nat → Nat} {l : List (Nat × Message)} {i v : Nat}
    (h : ∀ p ∈ l, p.1 ≠ i) : turnTokens (updFn mt i v) l = turnTokens mt l := by
  induction l with
  | nil => rfl
  | cons p rest ih =>
    have hp := h p (by simp)
    simp only [turnTokens_cons, updFn, if_neg hp, ih (fun q hq => h q (by simp [hq]))]

theorem step3Go_bound {tok : Tokenizer} (ht : tok.TruncBound) :
    ∀ (L : List (Nat × Message)) (mt : Nat → Nat) (e : Int)
      (out3 : List (Nat × Option Message)) (mt3 : Nat → Nat) (e3 : Int),
      step3Go tok mt L e = (out3, mt3, e3) →
      0 ≤ e →
      (∀ p ∈ L, adjCount tok p.2 ≤ mt p.1) →
      (L.map Prod.fst).Pairwise (· < ·) →
      (0 ≤ e3 ∧ e3 ≤ e) ∧
      ((adjSumPairs tok out3 : Int) ≤ (turnTokens mt L : Int) - (e - e3)) ∧
      (∀ p ∈ out3, adjCountOpt tok p.2 ≤ mt3 p.1) ∧
      (0 < e3 → (sumTokPairs mt3 out3 : Int) = (turnTokens mt L : Int) - (e - e3)) ∧
      (∀ j, (∀ p ∈ L, p.1 ≠ j) → mt3 j = mt j) ∧
      out3.map Prod.fst = L.map Prod.fst := by
  intro L
  induction L with
  | nil =>
    intro mt e out3 mt3 e3 heq he hpw hs
    rw [step3Go] at heq
    injection heq with h1 h23
    injection h23 with h2 h3
    subst h1 h2 h3
    refine ⟨⟨he, le_refl _⟩, by simp [adjSumPairs, turnTokens], by simp, ?_, fun j _ => rfl, rfl⟩
    intro
    simp [sumTokPairs, turnTokens]
  | cons p rest ih =>
    intro mt e out3 mt3 e3 heq he hpw hs
    obtain ⟨idx, m⟩ := p
    have hidx : ∀ q ∈ rest, q.1 ≠ idx := by
      simp only [List.map_cons, List.pairwise_cons] at hs
      intro q hq
      have := hs.1 q.1 (List.mem_map_of_mem Prod.fst hq)
      omega
    have hs' : (rest.map Prod.fst).Pairwise (· < ·) := by
      simp only [List.map_cons, List.pairwise_cons] at hs
      exact hs.2
    rw [step3Go] at heq
    by_cases hrole : ¬ m.role = .function
    · rw [if_pos hrole] at heq
      obtain ⟨r, mt', e', hrec⟩ : ∃ r mt' e', step3Go tok mt rest e = (r, mt', e') :=
        ⟨_, _, _, rfl⟩
      rw [hrec] at heq
      dsimp only at heq
      injection heq with h1 h23
      injection h23 with h2 h3
      subst h1 h2 h3
      obtain ⟨hb, hsum, hpw3, hsum3, hdom, hfst⟩ := ih mt e r mt' e' hrec he
        (fun q hq => hpw q (by simp [hq])) hs'
      have hmtidx : mt' idx = mt idx := hdom idx hidx
      refine ⟨hb, ?_, ?_, ?_, ?_, ?_⟩
      · have hle := hpw (idx, m) (by simp)
        simp only [adjSumPairs_cons, turnTokens_cons]
        push_cast
        simp only [adjCountOpt] at *
        omega
      · intro q hq
        rcases List.mem_cons.mp hq with h | h
        · subst h
          simp only [adjCountOpt, hmtidx]
          exact hpw (idx, m) (by simp)
        · exact hpw3 q h
      · intro hpos
        have := hsum3 hpos
        simp only [sumTokPairs_cons, turnTokens_cons, hmtidx]
        push_cast at this ⊢
        omega
      · intro j hj
        exact hdom j (fun q hq => hj q (by simp [hq]))
      · simp [hfst]
    · rw [if_neg hrole] at heq
      by_cases hlt : e < (mt idx : Int)
      · rw [if_pos hlt] at heq
        obtain ⟨r, mt', e', hrec⟩ : ∃ r mt' e', step3Go tok mt rest 0 = (r, mt', e') :=
          ⟨_, _, _, rfl⟩
        rw [hrec] at heq
        dsimp only at heq
        injection heq with h1 h23
        injection h23 with h2 h3
        subst h1 h2 h3
        obtain ⟨hb, hsum, hpw3, hsum3, hdom, hfst⟩ := ih mt 0 r mt' e' hrec (le_refl 0)
          (fun q hq => hpw q (by simp [hq])) hs'
        have he3 : e' = 0 := by omega
        subst he3
        have hmtidx : mt' idx = mt idx := hdom idx hidx
        have htm : (adjCountOpt tok (truncateMessage tok m ((mt idx : Int) - e) true) : Int) ≤
            (mt idx : Int) - e := adjCountOpt_truncateMessage ht m _ true (by omega)
        refine ⟨⟨le_refl _, he⟩, ?_, ?_, by omega, ?_, ?_⟩
        · simp only [adjSumPairs_cons, turnTokens_cons]
          push_cast
          omega
        · intro q hq
          rcases List.mem_cons.mp hq with h | h
          · subst h
            dsimp only
            rw [hmtidx]
            have : (0 : Int) ≤ mt idx - e := by omega
            omega
          · exact hpw3 q h
        · intro j hj
          exact hdom j (fun q hq => hj q (by simp [hq]))
        · simp [hfst]
      · rw [if_neg hlt] at heq
        obtain ⟨r, mt', e', hrec⟩ : ∃ r mt' e',
            step3Go tok (updFn mt idx 0) rest (e - mt idx) = (r, mt', e') := ⟨_, _, _, rfl⟩
        rw [hrec] at heq
        dsimp only at heq
        injection heq with h1 h23
        injection h23 with h2 h3
        subst h1 h2 h3
        have hpw' : ∀ q ∈ rest, adjCount tok q.2 ≤ updFn mt idx 0 q.1 := by
          intro q hq
          rw [updFn, if_neg (hidx q hq)]
          exact hpw q (by simp [hq])
        obtain ⟨hb, hsum, hpw3, hsum3, hdom, hfst⟩ := ih (updFn mt idx 0) (e - mt idx) r mt' e'
          hrec (by omega) hpw' hs'
        have htt : turnTokens (updFn mt idx 0) rest = turnTokens mt rest :=
          turnTokens_updFn hidx
        rw [htt] at hsum hsum3
        have hmtidx : mt' idx = 0 := by
          rw [hdom idx hidx, updFn, if_pos rfl]
        refine ⟨⟨by omega, by omega⟩, ?_, ?_, ?_, ?_, ?_⟩
        · have h0 : adjCountOpt tok (some { m with content := MsgContent.str "omit" }) = 0 := rfl
          simp only [adjSumPairs_cons, turnTokens_cons, h0, Nat.zero_add]
          push_cast at hsum ⊢
          omega
        · intro q hq
          rcases List.mem_cons.mp hq with h | h
          · subst h
            simp [adjCountOpt, adjCount]
          · exact hpw3 q h
        · intro hpos
          have := hsum3 hpos
          simp only [sumTokPairs_cons, turnTokens_cons, hmtidx, Nat.zero_add]
          push_cast at this ⊢
          omega
        · intro j hj
          have hj' : j ≠ idx := fun h => (hj (idx, m) (by simp)) h.symm
          rw [hdom j (fun q hq => hj q (by simp [hq])), updFn, if_neg hj']
        · simp [hfst]
end CatAgent
namespace CatAgent
theorem turnTokens_append (mt : Nat → Nat) (a b : List (Nat × Message)) :
    turnTokens mt (a ++ b) = turnTokens mt a + turnTokens mt b := by
  simp [turnTokens]

theorem step2Go_bound (mt : Nat → Nat) :
    ∀ (sl : List (List (Nat × Message))) (e : Int) (k0 : Nat) (k : Nat) (e2 : Int),
      step2Go mt sl e k0 = (k, e2) →
      0 < e →
      (∀ st ∈ sl, st ≠ []) →
      ((sl.flatten.map Prod.fst).Pairwise (· < ·)) →
      (0 ≤ e2 ∧ e2 ≤ e) ∧
      (e2 ≤ 0 →
        (e ≤ (turnTokens mt (sl.flatten.filter (fun p => p.1 < k)) : Int)) ∧
        ∃ m', (k, m') ∈ sl.flatten) ∧
      (0 < e2 →
        e2 = e - (((sl.dropLast).map (turnTokens mt)).sum : Int)) := by
  intro sl
  induction sl with
  | nil =>
    intro e k0 k e2 heq he hne hs
    rw [step2Go] at heq
    injection heq with h1 h2
    subst h1 h2
    exact ⟨⟨by omega, le_refl _⟩, fun h => absurd he (by omega), fun _ => by simp⟩
  | cons step sl' ih =>
    intro e k0 k e2 heq he hne hs
    cases sl' with
    | nil =>
      rw [step2Go] at heq
      injection heq with h1 h2
      subst h1 h2
      exact ⟨⟨by omega, le_refl _⟩, fun h => absurd he (by omega), fun _ => by simp⟩
    | cons next rest =>
      have hnext_ne : next ≠ [] := hne next (by simp)
      obtain ⟨q, next', hq⟩ : ∃ q next', next = q :: next' := by
        cases next with
        | nil => exact absurd rfl hnext_ne
        | cons q next' => exact ⟨q, next', rfl⟩
      have hcross : ∀ p ∈ step, ∀ r ∈ (next :: rest).flatten, p.1 < r.1 := by
        intro p hp r hr
        have hs' := hs
        rw [List.flatten_cons, List.map_append, List.pairwise_append] at hs'
        exact hs'.2.2 p.1 (List.mem_map_of_mem _ hp) r.1 (List.mem_map_of_mem _ hr)
      have hs2 : (((next :: rest).flatten).map Prod.fst).Pairwise (· < ·) := by
        have hs' := hs
        rw [List.flatten_cons, List.map_append, List.pairwise_append] at hs'
        exact hs'.2.1
      rw [step2Go] at heq
      by_cases hcl : e ≤ (turnTokens mt step : Int)
      · rw [if_pos hcl] at heq
        injection heq with h1 h2
        subst h1 h2
        have hk : stepHeadIdx next = q.1 := by rw [hq]; rfl
        have hqmem : (q.1, q.2) ∈ (next :: rest).flatten := by
          rw [hq]
          simp
        have hstep_lt : ∀ p ∈ step, p.1 < stepHeadIdx next := by
          intro p hp
          rw [hk]
          exact hcross p hp (q.1, q.2) hqmem
        refine ⟨⟨le_refl _, by omega⟩, fun _ => ⟨?_, ⟨q.2, by rw [hk, List.flatten_cons]; exact List.mem_append_right _ hqmem⟩⟩,
          fun h => absurd h (by omega)⟩
        have hfilter_step : step.filter (fun p => p.1 < stepHeadIdx next) = step := by
          rw [List.filter_eq_self]
          intro p hp
          simpa using hstep_lt p hp
        rw [List.flatten_cons, List.filter_append, turnTokens_append, hfilter_step]
        push_cast
        have : (0 : Int) ≤ turnTokens mt (((next :: rest).flatten).filter
            (fun p => p.1 < stepHeadIdx next)) := by positivity
        omega
      · rw [if_neg hcl] at heq
        obtain ⟨⟨hb1, hb2⟩, hclose, hopen⟩ := ih (e - turnTokens mt step) (stepHeadIdx next)
          k e2 heq (by omega) (fun st hst => hne st (by simp [hst])) hs2
        refine ⟨⟨hb1, by omega⟩, ?_, ?_⟩
        · intro h0
          obtain ⟨hsum, m', hm'⟩ := hclose h0
          have hkmem : (k, m') ∈ (next :: rest).flatten := hm'
          have hstep_lt : ∀ p ∈ step, p.1 < k := by
            intro p hp
            exact hcross p hp (k, m') hkmem
          constructor
          · have hfilter_step : step.filter (fun p => p.1 < k) = step := by
              rw [List.filter_eq_self]
              intro p hp
              simpa using hstep_lt p hp
            rw [List.flatten_cons, List.filter_append, turnTokens_append, hfilter_step]
            push_cast at hsum ⊢
            omega
          · exact ⟨m', by rw [List.flatten_cons]; exact List.mem_append_right _ hkmem⟩
        · intro h0
          have := hopen h0
          rw [this]
          have hdl : (step :: next :: rest).dropLast = step :: (next :: rest).dropLast := by
            simp
          rw [hdl]
          simp only [List.map_cons, List.sum_cons]
          push_cast
          ring
end CatAgent
namespace CatAgent
theorem adjSumPairs_map_some (tok : Tokenizer) (l : List (Nat × Message)) :
    adjSumPairs tok (l.map (fun p => (p.1, some p.2))) =
      (l.map (fun p => adjCount tok p.2)).sum := by
  induction l with
  | nil => rfl
  | cons p rest ih => simp [adjSumPairs, adjCountOpt] at ih ⊢; omega

theorem sum_adjCount_le_turnTokens {tok : Tokenizer} {mt : Nat → Nat}
    {l : List (Nat × Message)} (h : ∀ p ∈ l, adjCount tok p.2 ≤ mt p.1) :
    (l.map (fun p => adjCount tok p.2)).sum ≤ turnTokens mt l := by
  induction l with
  | nil => simp [turnTokens]
  | cons p rest ih =>
    have h1 := h p (by simp)
    have h2 := ih (fun q hq => h q (by simp [hq]))
    simp only [List.map_cons, List.sum_cons, turnTokens_cons] at h2 ⊢
    omega

theorem step1Go_bound {tok : Tokenizer} (ht : tok.TruncBound) (isLast : Bool) (lsi : Nat) :
    ∀ (pairs : List (Nat × Message)) (mt : Nat → Nat) (e : Int),
      0 ≤ e →
      (∀ p ∈ pairs, adjCount tok p.2 ≤ mt p.1) →
      ((pairs.map Prod.fst).Pairwise (· < ·)) →
      (∀ out, step1Go tok isLast lsi pairs mt e = .inl out →
         (adjSumPairs tok out : Int) ≤ (turnTokens mt pairs : Int) - e) ∧
      (∀ pairs1 mt1 e1, step1Go tok isLast lsi pairs mt e = .inr (pairs1, mt1, e1) →
         (0 ≤ e1 ∧ e1 ≤ e) ∧
         (pairs1.map (fun p => (p.1, p.2.role)) = pairs.map (fun p => (p.1, p.2.role))) ∧
         (∀ p ∈ pairs1, adjCount tok p.2 ≤ mt1 p.1) ∧
         ((turnTokens mt1 pairs1 : Int) = turnTokens mt pairs - (e - e1)) ∧
         (∀ j, (∀ p ∈ pairs, p.1 ≠ j) → mt1 j = mt j)) := by
  intro pairs
  induction pairs with
  | nil =>
    intro mt e he hpw hs
    constructor
    · intro out hout
      rw [step1Go] at hout
      exact absurd hout (by simp)
    · intro pairs1 mt1 e1 heq
      rw [step1Go] at heq
      injection heq with heq'
      injection heq' with h1 h23
      injection h23 with h2 h3
      subst h1 h2 h3
      exact ⟨⟨he, le_refl _⟩, rfl, by simp, by simp [turnTokens], fun j _ => rfl⟩
  | cons p rest ih =>
    intro mt e he hpw hs
    obtain ⟨idx, m⟩ := p
    have hidx : ∀ q ∈ rest, q.1 ≠ idx := by
      simp only [List.map_cons, List.pairwise_cons] at hs
      intro q hq
      have := hs.1 q.1 (List.mem_map_of_mem Prod.fst hq)
      omega
    have hs' : (rest.map Prod.fst).Pairwise (· < ·) := by
      simp only [List.map_cons, List.pairwise_cons] at hs
      exact hs.2
    have hpwr : ∀ q ∈ rest, adjCount tok q.2 ≤ mt q.1 := fun q hq => hpw q (by simp [hq])
    by_cases hcond : e ≤ 0 ∨ ¬ m.role = .function ∨ (isLast = true ∧ lsi ≤ idx)
    · -- skip branch
      constructor
      · intro out hout
        rw [step1Go, if_pos hcond] at hout
        cases hrec : step1Go tok isLast lsi rest mt e with
        | inl out' =>
          rw [hrec] at hout
          injection hout with h1
          subst h1
          have := (ih mt e he hpwr hs').1 out' hrec
          have hle : adjCount tok m ≤ mt idx := hpw (idx, m) (by simp)
          simp only [adjSumPairs_cons, turnTokens_cons, adjCountOpt]
          push_cast at this ⊢
          omega
        | inr x =>
          rw [hrec] at hout
          exact absurd hout (by simp)
      · intro pairs1 mt1 e1 heq
        rw [step1Go, if_pos hcond] at heq
        cases hrec : step1Go tok isLast lsi rest mt e with
        | inl out' =>
          rw [hrec] at heq
          exact absurd heq (by simp)
        | inr x =>
          obtain ⟨r, mt', e'⟩ := x
          rw [hrec] at heq
          injection heq with heq'
          injection heq' with h1 h23
          injection h23 with h2 h3
          subst h1 h2 h3
          obtain ⟨hb, hmap, hpw1, hsum, hdom⟩ := (ih mt e he hpwr hs').2 r mt' e' hrec
          have hmtidx : mt' idx = mt idx := hdom idx hidx
          refine ⟨hb, by simp [hmap], ?_, ?_, ?_⟩
          · intro q hq
            rcases List.mem_cons.mp hq with h | h
            · subst h
              rw [hmtidx]
              exact hpw (idx, m) (by simp)
            · exact hpw1 q h
          · simp only [turnTokens_cons, hmtidx]
            push_cast at hsum ⊢
            omega
          · intro j hj
            exact hdom j (fun q hq => hj q (by simp [hq]))
    · -- function-message branch
      push_neg at hcond
      obtain ⟨he0, hrole, hnl⟩ := hcond
      by_cases hlt : e < (mt idx : Int)
      · -- truncate and break
        constructor
        · intro out hout
          rw [step1Go, if_neg (by push_neg; exact ⟨he0, hrole, hnl⟩), if_pos hlt] at hout
          injection hout with h1
          subst h1
          have htm : (adjCountOpt tok (truncateMessage tok m ((mt idx : Int) - e) true) : Int) ≤
              (mt idx : Int) - e := adjCountOpt_truncateMessage ht m _ true (by omega)
          have h2 : (rest.map (fun p => adjCount tok p.2)).sum ≤ turnTokens mt rest :=
            sum_adjCount_le_turnTokens hpwr
          have h2i : (((rest.map (fun p => adjCount tok p.2)).sum : Nat) : Int) ≤
              (turnTokens mt rest : Int) := by exact_mod_cast h2
          simp only [adjSumPairs_cons, turnTokens_cons, adjSumPairs_map_some]
          rw [Nat.cast_add, Nat.cast_add]
          omega
        · intro pairs1 mt1 e1 heq
          rw [step1Go, if_neg (by push_neg; exact ⟨he0, hrole, hnl⟩), if_pos hlt] at heq
          exact absurd heq (by simp)
      · -- omit and continue
        have hge : (mt idx : Int) ≤ e := by omega
        have hpw' : ∀ q ∈ rest, adjCount tok q.2 ≤ updFn mt idx 0 q.1 := by
          intro q hq
          rw [updFn, if_neg (hidx q hq)]
          exact hpwr q hq
        have hrecall := ih (updFn mt idx 0) (e - mt idx) (by omega) hpw' hs'
        constructor
        · intro out hout
          rw [step1Go, if_neg (by push_neg; exact ⟨he0, hrole, hnl⟩), if_neg hlt] at hout
          cases hrec : step1Go tok isLast lsi rest (updFn mt idx 0) (e - mt idx) with
          | inl out' =>
            rw [hrec] at hout
            injection hout with h1
            subst h1
            have hrb := hrecall.1 out' hrec
            have htt : turnTokens (updFn mt idx 0) rest = turnTokens mt rest :=
              turnTokens_updFn hidx
            rw [htt] at hrb
            have h0 : adjCountOpt tok (some { m with content := MsgContent.str "omit" }) = 0 := rfl
            simp only [adjSumPairs_cons, turnTokens_cons, h0, Nat.zero_add]
            push_cast at hrb ⊢
            omega
          | inr x =>
            rw [hrec] at hout
            exact absurd hout (by simp)
        · intro pairs1 mt1 e1 heq
          rw [step1Go, if_neg (by push_neg; exact ⟨he0, hrole, hnl⟩), if_neg hlt] at heq
          cases hrec : step1Go tok isLast lsi rest (updFn mt idx 0) (e - mt idx) with
          | inl out' =>
            rw [hrec] at heq
            exact absurd heq (by simp)
          | inr x =>
            obtain ⟨r, mt', e'⟩ := x
            rw [hrec] at heq
            injection heq with heq'
            injection heq' with h1 h23
            injection h23 with h2 h3
            subst h1 h2 h3
            obtain ⟨hb, hmap, hpw1, hsum, hdom⟩ := hrecall.2 r mt' e' hrec
            have htt : turnTokens (updFn mt idx 0) rest = turnTokens mt rest :=
              turnTokens_updFn hidx
            rw [htt] at hsum
            have hmtidx : mt' idx = 0 := by
              rw [hdom idx hidx, updFn, if_pos rfl]
            refine ⟨⟨by omega, by omega⟩, by simp [hmap], ?_, ?_, ?_⟩
            · intro q hq
              rcases List.mem_cons.mp hq with h | h
              · subst h
                simp [adjCount]
              · exact hpw1 q h
            · simp only [turnTokens_cons, hmtidx, Nat.zero_add]
              push_cast at hsum ⊢
              omega
            · intro j hj
              have hj' : j ≠ idx := fun h => (hj (idx, m) (by simp)) h.symm
              rw [hdom j (fun q hq => hj q (by simp [hq])), updFn, if_neg hj']
end CatAgent
namespace CatAgent
theorem splitGo_flatten :
    ∀ (l : List (Nat × Message)) (cur : List (Nat × Message)) (lastRole : Role),
      (splitGo cur lastRole l).flatten = cur ++ l.filter (fun p => ¬ p.2.role = .system) := by
  intro l
  induction l with
  | nil => intro cur lastRole; simp [splitGo]
  | cons p rest ih =>
    intro cur lastRole
    obtain ⟨i, m⟩ := p
    rw [splitGo]
    cases hrole : m.role with
    | system => simp [ih, List.filter_cons, hrole]
    | function => simp [ih, List.filter_cons, hrole]
    | user =>
      by_cases hl : Role.user = lastRole
      · subst hl
        simp [ih, List.filter_cons, hrole]
      · simp [hl, ih, List.filter_cons, hrole]
    | assistant =>
      by_cases hl : Role.assistant = lastRole
      · subst hl
        simp [ih, List.filter_cons, hrole]
      · simp [hl, ih, List.filter_cons, hrole]

theorem splitGo_ne_nil :
    ∀ (l : List (Nat × Message)) (cur : List (Nat × Message)) (lastRole : Role),
      cur ≠ [] → ∀ st ∈ splitGo cur lastRole l, st ≠ [] := by
  intro l
  induction l with
  | nil =>
    intro cur lastRole hcur st hst
    rw [splitGo] at hst
    simp at hst
    rwa [hst]
  | cons p rest ih =>
    intro cur lastRole hcur st hst
    obtain ⟨i, m⟩ := p
    rw [splitGo] at hst
    cases hrole : m.role with
    | system =>
      rw [hrole] at hst
      exact ih cur lastRole hcur st hst
    | function =>
      rw [hrole] at hst
      exact ih (cur ++ [(i, m)]) .function (by simp) st hst
    | user =>
      rw [hrole] at hst
      dsimp only at hst
      by_cases hl : Role.user = lastRole
      · rw [if_pos hl] at hst
        exact ih (cur ++ [(i, m)]) _ (by simp) st hst
      · rw [if_neg hl] at hst
        rcases List.mem_cons.mp hst with h | h
        · rwa [h]
        · exact ih [(i, m)] _ (by simp) st h
    | assistant =>
      rw [hrole] at hst
      dsimp only at hst
      by_cases hl : Role.assistant = lastRole
      · rw [if_pos hl] at hst
        exact ih (cur ++ [(i, m)]) _ (by simp) st hst
      · rw [if_neg hl] at hst
        rcases List.mem_cons.mp hst with h | h
        · rwa [h]
        · exact ih [(i, m)] _ (by simp) st h

theorem splitGo_ne_nil_result :
    ∀ (l : List (Nat × Message)) (cur : List (Nat × Message)) (lastRole : Role),
      splitGo cur lastRole l ≠ [] := by
  intro l
  induction l with
  | nil => intro cur lastRole; simp [splitGo]
  | cons p rest ih =>
    intro cur lastRole
    obtain ⟨i, m⟩ := p
    rw [splitGo]
    cases m.role with
    | system => exact ih cur lastRole
    | function => exact ih (cur ++ [(i, m)]) .function
    | user =>
      dsimp only
      by_cases hl : Role.user = lastRole
      · rw [if_pos hl]; exact ih _ _
      · rw [if_neg hl]; simp
    | assistant =>
      dsimp only
      by_cases hl : Role.assistant = lastRole
      · rw [if_pos hl]; exact ih _ _
      · rw [if_neg hl]; simp

theorem split_two_steps {i0 i1 : Nat} {m0 m1 : Message} {rest : List (Nat × Message)}
    (h0 : m0.role = .user) (h1 : m1.role = .assistant) :
    splitTurnIntoSteps ((i0, m0) :: (i1, m1) :: rest) =
      [(i0, m0)] :: splitGo [(i1, m1)] .assistant rest := by
  rw [splitTurnIntoSteps, splitGo, h1, h0]
  simp
end CatAgent
namespace CatAgent
theorem adjSum_map_snd (tok : Tokenizer) (l : List (Nat × Option Message)) :
    adjSum tok (l.map Prod.snd) = adjSumPairs tok l := by
  induction l with
  | nil => rfl
  | cons p rest ih => simp [adjSum, adjSumPairs] at ih ⊢; omega

theorem adjSum_map_some (tok : Tokenizer) (l : List (Nat × Message)) :
    adjSum tok (l.map (fun p => some p.2)) = (l.map (fun p => adjCount tok p.2)).sum := by
  induction l with
  | nil => rfl
  | cons p rest ih => simp [adjSum, adjCountOpt] at ih ⊢; omega

theorem turnTokens_filter_partition (mt : Nat → Nat) (k : Nat) (l : List (Nat × Message)) :
    turnTokens mt l =
      turnTokens mt (l.filter (fun p => p.1 < k)) +
        turnTokens mt (l.filter (fun p => k ≤ p.1)) := by
  induction l with
  | nil => rfl
  | cons p rest ih =>
    by_cases hp : p.1 < k
    · rw [List.filter_cons_of_pos (by simpa using hp),
        List.filter_cons_of_neg (by simpa using hp)]
      simp only [turnTokens_cons]
      omega
    · rw [List.filter_cons_of_neg (by simpa using hp),
        List.filter_cons_of_pos (by simpa using hp)]
      simp only [turnTokens_cons]
      omega

theorem turnTokens_flatten (mt : Nat → Nat) (sl : List (List (Nat × Message))) :
    (sl.map (turnTokens mt)).sum = turnTokens mt sl.flatten := by
  induction sl with
  | nil => rfl
  | cons st rest ih => simp [turnTokens_append, ih]

theorem sum_adjCount_filter_le {tok : Tokenizer} {mt : Nat → Nat}
    {l : List (Nat × Message)} (p : Nat × Message → Bool)
    (h : ∀ q ∈ l, adjCount tok q.2 ≤ mt q.1) :
    ((l.filter p).map (fun q => adjCount tok q.2)).sum ≤ turnTokens mt (l.filter p) :=
  sum_adjCount_le_turnTokens (fun q hq => h q (List.mem_of_mem_filter hq))
end CatAgent
namespace CatAgent
theorem adjSum_append (tok : Tokenizer) (a b : List (Option Message)) :
    adjSum tok (a ++ b) = adjSum tok a + adjSum tok b := by
  simp [adjSum]

theorem getLastD_eq_getLast {α : Type} (l : List α) (h : l ≠ []) (d : α) :
    l.getLastD d = l.getLast h := by
  induction l generalizing d with
  | nil => exact absurd rfl h
  | cons a rest ih =>
    cases rest with
    | nil => rfl
    | cons b r2 =>
      rw [List.getLastD_cons, ih (by simp)]
      rfl

theorem truncateTurn_bound {tok : Tokenizer} (ht : tok.TruncBound) :
    ∀ (pairs : List (Nat × Message)) (mt : Nat → Nat) (e : Int) (isLast : Bool)
      (out : List (Option Message)) (e' : Int),
      truncateTurn tok pairs mt e isLast = some (out, e') →
      0 < e →
      (∀ p ∈ pairs, adjCount tok p.2 ≤ mt p.1) →
      ((pairs.map Prod.fst).Pairwise (· < ·)) →
      turnShape pairs →
      0 ≤ e' ∧ e' ≤ e ∧ (e - e' ≤ (turnTokens mt pairs : Int)) ∧
      ((adjSum tok out : Int) ≤ max ((turnTokens mt pairs : Int) - e) 0) := by
  intro pairs mt e isLast out e' heq he hpw hs hshape
  obtain ⟨⟨i0, m0⟩, rpairs, rfl⟩ : ∃ p0 rpairs, pairs = p0 :: rpairs := by
    cases pairs with
    | nil => exact absurd hshape (by simp [turnShape])
    | cons p0 rpairs => exact ⟨p0, rpairs, rfl⟩
  obtain ⟨hm0, htailrole, hsecond⟩ := hshape
  cases rpairs with
  | nil =>
    rw [truncateTurn] at heq
    by_cases hdrop : (turnTokens mt [(i0, m0)] : Int) ≤ e
    · rw [if_pos hdrop] at heq
      injection heq with heq'
      injection heq' with h1 h2
      subst h1 h2
      refine ⟨by omega, by omega, by omega, ?_⟩
      simpa [adjSum] using le_max_right ((turnTokens mt [(i0, m0)] : Int) - e) 0
    · rw [if_neg hdrop] at heq
      by_cases hl : isLast
      · rw [hl, if_pos rfl] at heq
        injection heq with heq'
        injection heq' with h1 h2
        subst h1 h2
        have hA : turnTokens mt [(i0, m0)] = mt i0 := by
          simp [turnTokens]
        rw [hA] at hdrop ⊢
        have htm : (adjCountOpt tok
            (truncateMessage tok m0 ((mt i0 : Int) - e) true) : Int) ≤ (mt i0 : Int) - e :=
          adjCountOpt_truncateMessage ht m0 _ true (by omega)
        refine ⟨le_refl _, by omega, by omega, ?_⟩
        have hsum : (adjSum tok [truncateMessage tok m0 ((mt i0 : Int) - e) true] : Int) =
            (adjCountOpt tok (truncateMessage tok m0 ((mt i0 : Int) - e) true) : Int) := by
          simp [adjSum]
        rw [hsum, max_eq_left (by omega)]
        omega
      · rw [Bool.not_eq_true] at hl
        rw [hl] at heq
        exact absurd heq (by simp)
  | cons p1 rest2 =>
    obtain ⟨i1, m1⟩ := p1
    have hm1 : m1.role = .assistant := hsecond
    simp only [truncateTurn] at heq
    by_cases hdrop : (turnTokens mt ((i0, m0) :: (i1, m1) :: rest2) : Int) ≤ e
    · rw [if_pos hdrop] at heq
      injection heq with heq'
      injection heq' with h1 h2
      subst h1 h2
      refine ⟨by omega, by omega, by omega, ?_⟩
      simpa [adjSum] using
        le_max_right ((turnTokens mt ((i0, m0) :: (i1, m1) :: rest2) : Int) - e) 0
    · rw [if_neg hdrop] at heq
      have hA : ¬ (turnTokens mt ((i0, m0) :: (i1, m1) :: rest2) : Int) ≤ e := hdrop
      obtain ⟨hb1, hb2⟩ := step1Go_bound ht isLast
        (stepHeadIdx ((splitTurnIntoSteps ((i0, m0) :: (i1, m1) :: rest2)).getLastD []))
        ((i0, m0) :: (i1, m1) :: rest2) mt e (by omega) hpw hs
      cases hrec1 : step1Go tok isLast
          (stepHeadIdx ((splitTurnIntoSteps ((i0, m0) :: (i1, m1) :: rest2)).getLastD []))
          ((i0, m0) :: (i1, m1) :: rest2) mt e with
      | inl broken =>
        rw [hrec1] at heq
        dsimp only at heq
        injection heq with heq'
        injection heq' with h1 h2
        subst h1 h2
        have hbound := hb1 broken hrec1
        refine ⟨le_refl _, by omega, by omega, ?_⟩
        rw [adjSum_map_snd, max_eq_left (by omega)]
        omega
      | inr x =>
        obtain ⟨pairs1, mt1, e1⟩ := x
        rw [hrec1] at heq
        dsimp only at heq
        obtain ⟨⟨he1a, he1b⟩, hmap, hpw1, hsum1, hdom1⟩ := hb2 pairs1 mt1 e1 hrec1
        by_cases he1 : e1 ≤ 0
        · rw [if_pos he1] at heq
          injection heq with heq'
          injection heq' with h1 h2
          subst h1 h2
          refine ⟨le_refl _, by omega, by omega, ?_⟩
          have hz : e1 = 0 := by omega
          rw [hz] at hsum1
          have hle : (pairs1.map (fun p => adjCount tok p.2)).sum ≤ turnTokens mt1 pairs1 :=
            sum_adjCount_le_turnTokens hpw1
          rw [adjSum_map_some, max_eq_left (by omega)]
          omega
        · rw [if_neg he1] at heq
          -- structure of pairs1
          obtain ⟨⟨j0, q0⟩, ⟨j1, q1⟩, rest1, rfl⟩ :
              ∃ a b rest1, pairs1 = a :: b :: rest1 := by
            cases pairs1 with
            | nil => simp at hmap
            | cons a t =>
              cases t with
              | nil =>
                exfalso
                have := congrArg List.length hmap
                simp at this
              | cons b rest1 => exact ⟨a, b, rest1, rfl⟩
          simp only [List.map_cons, List.cons.injEq, Prod.mk.injEq] at hmap
          obtain ⟨⟨hj0, hq0r⟩, ⟨hj1, hq1r⟩, hrestmap⟩ := hmap
          have hq0u : q0.role = .user := by rw [hq0r, hm0]
          have hq1a : q1.role = .assistant := by rw [hq1r, hm1]
          have hrestroles : rest1.map (fun p => p.2.role) = rest2.map (fun p => p.2.role) := by
            have := congrArg (List.map Prod.snd) hrestmap
            simpa [List.map_map, Function.comp] using this
          have htail1 : ∀ p ∈ (j1, q1) :: rest1,
              p.2.role = Role.assistant ∨ p.2.role = Role.function := by
            intro p hp
            rcases List.mem_cons.mp hp with h | h
            · subst h
              exact Or.inl hq1a
            · have hmem : p.2.role ∈ rest2.map (fun p => p.2.role) := by
                rw [← hrestroles]
                exact List.mem_map_of_mem _ h
              obtain ⟨p', hp', hpr⟩ := List.mem_map.mp hmem
              rw [← hpr]
              exact htailrole p' (by simp [hp'])
          have hnosys1 : ∀ p ∈ (j0, q0) :: (j1, q1) :: rest1, ¬ p.2.role = .system := by
            intro p hp
            rcases List.mem_cons.mp hp with h | h
            · subst h
              simp [hq0u]
            · rcases htail1 p h with h' | h' <;> simp [h']
          have hfst1 : ((j0, q0) :: (j1, q1) :: rest1).map Prod.fst =
              ((i0, m0) :: (i1, m1) :: rest2).map Prod.fst := by
            simp only [List.map_cons, hj0, hj1]
            have := congrArg (List.map Prod.fst) hrestmap
            simpa [List.map_map, Function.comp] using this
          have hs1 : (((j0, q0) :: (j1, q1) :: rest1).map Prod.fst).Pairwise (· < ·) := by
            rw [hfst1]
            exact hs
          -- step structure of pairs1
          have hsteps1 : splitTurnIntoSteps ((j0, q0) :: (j1, q1) :: rest1) =
              [(j0, q0)] :: splitGo [(j1, q1)] .assistant rest1 := split_two_steps hq0u hq1a
          have htail_ne : splitGo [(j1, q1)] .assistant rest1 ≠ [] :=
            splitGo_ne_nil_result rest1 [(j1, q1)] .assistant
          have htailflat : (splitGo [(j1, q1)] .assistant rest1).flatten = (j1, q1) :: rest1 := by
            rw [splitGo_flatten]
            have : rest1.filter (fun p => ¬ p.2.role = .system) = rest1 := by
              rw [List.filter_eq_self]
              intro p hp
              simpa using hnosys1 p (by simp [hp])
            rw [this]
            rfl
          simp only [hsteps1, List.tail_cons, List.headD_cons, List.getLastD_cons,
            getLastD_eq_getLast _ htail_ne] at heq
          obtain ⟨k, e2, hrec2⟩ : ∃ k e2,
              step2Go mt1 (splitGo [(j1, q1)] Role.assistant rest1) e1 0 = (k, e2) :=
            ⟨_, _, rfl⟩
          rw [hrec2] at heq
          dsimp only at heq
          have hsortflat : ((((splitGo [(j1, q1)] Role.assistant rest1).flatten).map
              Prod.fst).Pairwise (· < ·)) := by
            rw [htailflat]
            exact (List.pairwise_cons.mp hs1).2
          obtain ⟨⟨he2a, he2b⟩, hclose, hopen⟩ := step2Go_bound mt1 _ e1 0 k e2 hrec2 (by omega)
            (splitGo_ne_nil rest1 [(j1, q1)] Role.assistant (by simp)) hsortflat
          by_cases he2 : e2 ≤ 0
          · rw [if_pos he2] at heq
            injection heq with heq'
            injection heq' with h1 h2
            subst h1 h2
            obtain ⟨hsum2, m', hm'⟩ := hclose he2
            have hkmem : (k, m') ∈ (j1, q1) :: rest1 := by rw [← htailflat]; exact hm'
            have hj0k : j0 < k :=
              (List.pairwise_cons.mp hs1).1 k (List.mem_map.mpr ⟨(k, m'), hkmem, rfl⟩)
            refine ⟨le_refl _, by omega, by omega, ?_⟩
            have hgeP : ((j0, q0) :: (j1, q1) :: rest1).filter (fun p => k ≤ p.1) =
                ((j1, q1) :: rest1).filter (fun p => k ≤ p.1) :=
              List.filter_cons_of_neg (by simp; omega)
            have hpart := turnTokens_filter_partition mt1 k ((j1, q1) :: rest1)
            have hfl2 : turnTokens mt1 ((splitGo [(j1, q1)] Role.assistant rest1).flatten.filter
                (fun p => p.1 < k)) =
                turnTokens mt1 (((j1, q1) :: rest1).filter (fun p => p.1 < k)) := by
              rw [htailflat]
            rw [hfl2] at hsum2
            have hadj : ((((j1, q1) :: rest1).filter (fun p => k ≤ p.1)).map
                (fun p => adjCount tok p.2)).sum ≤
                turnTokens mt1 (((j1, q1) :: rest1).filter (fun p => k ≤ p.1)) :=
              sum_adjCount_filter_le _ (fun q hq => hpw1 q (by simp [hq]))
            have hq0le : adjCount tok q0 ≤ mt1 j0 := hpw1 (j0, q0) (by simp)
            rw [adjSum_append, adjSum_map_some, adjSum_map_some, hgeP, max_eq_left (by omega)]
            simp only [List.map_cons, List.map_nil, List.sum_cons, List.sum_nil, Nat.add_zero]
            have hsplitP : (turnTokens mt1 ((j0, q0) :: (j1, q1) :: rest1) : Int) =
                (mt1 j0 : Int) + (turnTokens mt1 ((j1, q1) :: rest1) : Int) := by
              rw [turnTokens_cons]
              push_cast
              ring
            have hparti : (turnTokens mt1 ((j1, q1) :: rest1) : Int) =
                (turnTokens mt1 (((j1, q1) :: rest1).filter (fun p => p.1 < k)) : Int) +
                (turnTokens mt1 (((j1, q1) :: rest1).filter (fun p => k ≤ p.1)) : Int) := by
              exact_mod_cast hpart
            have hadji : (((((j1, q1) :: rest1).filter (fun p => k ≤ p.1)).map
                (fun p => adjCount tok p.2)).sum : Int) ≤
                (turnTokens mt1 (((j1, q1) :: rest1).filter (fun p => k ≤ p.1)) : Int) := by
              exact_mod_cast hadj
            have hq0i : ((adjCount tok q0 : Nat) : Int) ≤ ((mt1 j0 : Nat) : Int) := by
              exact_mod_cast hq0le
            rw [Nat.cast_add]
            omega
          · rw [if_neg he2] at heq
            have he2pos : 0 < e2 := by omega
            have he2eq := hopen he2pos
            have hLmem : (splitGo [(j1, q1)] Role.assistant rest1).getLast htail_ne ∈
                splitGo [(j1, q1)] Role.assistant rest1 := List.getLast_mem htail_ne
            have hdecomp : (splitGo [(j1, q1)] Role.assistant rest1).dropLast ++
                [(splitGo [(j1, q1)] Role.assistant rest1).getLast htail_ne] =
                splitGo [(j1, q1)] Role.assistant rest1 := List.dropLast_append_getLast htail_ne
            have hflatdecomp : (splitGo [(j1, q1)] Role.assistant rest1).flatten =
                (splitGo [(j1, q1)] Role.assistant rest1).dropLast.flatten ++
                (splitGo [(j1, q1)] Role.assistant rest1).getLast htail_ne := by
              conv_lhs => rw [← hdecomp]
              simp
            have hLsub : ∀ p ∈ (splitGo [(j1, q1)] Role.assistant rest1).getLast htail_ne,
                p ∈ (j1, q1) :: rest1 := by
              intro p hp
              rw [← htailflat]
              exact List.mem_flatten.mpr ⟨_, hLmem, hp⟩
            have hpwL : ∀ p ∈ (splitGo [(j1, q1)] Role.assistant rest1).getLast htail_ne,
                adjCount tok p.2 ≤ mt1 p.1 := fun p hp => hpw1 p (by simp [hLsub p hp])
            have hsortL : ((((splitGo [(j1, q1)] Role.assistant rest1).getLast htail_ne).map
                Prod.fst).Pairwise (· < ·)) := by
              have := hsortflat
              rw [hflatdecomp, List.map_append, List.pairwise_append] at this
              exact this.2.1
            obtain ⟨out3, mt3, e3, hrec3⟩ : ∃ out3 mt3 e3,
                step3Go tok mt1 ((splitGo [(j1, q1)] Role.assistant rest1).getLast htail_ne) e2 =
                  (out3, mt3, e3) := ⟨_, _, _, rfl⟩
            rw [hrec3] at heq
            dsimp only at heq
            obtain ⟨⟨he3a, he3b⟩, hsum3, hpw3, hsumTok3, hdom3, hfst3⟩ :=
              step3Go_bound ht _ mt1 e2 out3 mt3 e3 hrec3 (by omega) hpwL hsortL
            -- token-sum bookkeeping shared by both subcases
            have hTP : (turnTokens mt1 ((j0, q0) :: (j1, q1) :: rest1) : Int) =
                (mt1 j0 : Int) +
                (turnTokens mt1 (splitGo [(j1, q1)] Role.assistant rest1).dropLast.flatten : Int) +
                (turnTokens mt1 ((splitGo [(j1, q1)] Role.assistant rest1).getLast htail_ne) : Int) := by
              rw [turnTokens_cons, ← htailflat, hflatdecomp, turnTokens_append]
              push_cast
              ring
            have hdropsum : (((splitGo [(j1, q1)] Role.assistant rest1).dropLast.map
                (turnTokens mt1)).sum : Int) =
                (turnTokens mt1 (splitGo [(j1, q1)] Role.assistant rest1).dropLast.flatten : Int) := by
              rw [turnTokens_flatten]
            rw [hdropsum] at he2eq
            have hj0notL : ∀ p ∈ (splitGo [(j1, q1)] Role.assistant rest1).getLast htail_ne,
                p.1 ≠ j0 := by
              intro p hp
              have hmem := hLsub p hp
              have := (List.pairwise_cons.mp hs1).1 p.1 (List.mem_map.mpr ⟨p, hmem, rfl⟩)
              omega
            have hq0le : adjCount tok q0 ≤ mt1 j0 := hpw1 (j0, q0) (by simp)
            by_cases he3 : e3 ≤ 0
            · rw [if_pos he3] at heq
              injection heq with heq'
              injection heq' with h1 h2
              subst h1 h2
              refine ⟨le_refl _, by omega, by omega, ?_⟩
              rw [adjSum_map_snd, max_eq_left (by omega)]
              have hz3 : e3 = 0 := by omega
              rw [hz3] at hsum3
              have hsplit : adjSumPairs tok
                  (List.map (fun p => (p.1, some p.2)) [(j0, q0)] ++ out3) =
                  adjCount tok q0 + adjSumPairs tok out3 := by
                simp [adjSumPairs, adjCountOpt]
              rw [hsplit, Nat.cast_add]
              have hq0i : ((adjCount tok q0 : Nat) : Int) ≤ ((mt1 j0 : Nat) : Int) := by
                exact_mod_cast hq0le
              omega
            · rw [if_neg he3] at heq
              injection heq with heq'
              injection heq' with h1 h2
              subst h1 h2
              refine ⟨le_refl _, by omega, by omega, ?_⟩
              have hpwK : ∀ p ∈ List.map (fun p => (p.1, some p.2)) [(j0, q0)] ++ out3,
                  adjCountOpt tok p.2 ≤ mt3 p.1 := by
                intro p hp
                rcases List.mem_append.mp hp with h | h
                · simp only [List.map_cons, List.map_nil, List.mem_singleton] at h
                  subst h
                  have : mt3 j0 = mt1 j0 := hdom3 j0 hj0notL
                  simp only [adjCountOpt, this]
                  exact hq0le
                · exact hpw3 p h
              have hbound := step4Go_bound ht mt3
                (List.map (fun p => (p.1, some p.2)) [(j0, q0)] ++ out3) e3 (by omega) hpwK
              rw [adjSum_map_snd]
              have hstk : (sumTokPairs mt3
                  (List.map (fun p => (p.1, some p.2)) [(j0, q0)] ++ out3) : Int) =
                  (mt3 j0 : Int) + (sumTokPairs mt3 out3 : Int) := by
                simp [sumTokPairs]
              have hmt3j0 : mt3 j0 = mt1 j0 := hdom3 j0 hj0notL
              have hst3 := hsumTok3 (by omega)
              have hval : (sumTokPairs mt3
                  (List.map (fun p => (p.1, some p.2)) [(j0, q0)] ++ out3) : Int) - e3 =
                  (turnTokens mt ((i0, m0) :: (i1, m1) :: rest2) : Int) - e := by
                rw [hstk, hmt3j0]
                omega
              rw [hval] at hbound
              exact hbound

/-- Bound for the turn loop (truncation.py:75-89): with a nonnegative initial
exceedance, pointwise adjusted-count bounds, sorted indices and well-shaped
turns, the adjusted token sum of the produced slots is at most the total
accounted tokens of all turns minus the exceedance, clamped at zero. -/
theorem processTurns_bound {tok : Tokenizer} (ht : tok.TruncBound) (mt : Nat → Nat) :
    ∀ (turns : List (List (Nat × Message))) (e : Int) (out : List (Option Message)),
      processTurns tok mt turns e = some out →
      0 ≤ e →
      (∀ t ∈ turns, ∀ p ∈ t, adjCount tok p.2 ≤ mt p.1) →
      (∀ t ∈ turns, ((t.map Prod.fst).Pairwise (· < ·))) →
      (∀ t ∈ turns, turnShape t) →
      (adjSum tok out : Int) ≤ max (((turns.map (turnTokens mt)).sum : Int) - e) 0 := by
  intro turns
  induction turns with
  | nil =>
    intro e out heq he hpw hs hshape
    simp only [processTurns] at heq
    injection heq with h
    subst h
    simp only [adjSum, List.map_nil, List.sum_nil, Nat.cast_zero]
    exact le_max_right _ _
  | cons t rest ih =>
    intro e out heq he hpw hs hshape
    rw [processTurns] at heq
    have hpw_t : ∀ p ∈ t, adjCount tok p.2 ≤ mt p.1 := hpw t (by simp)
    have hpw_r : ∀ u ∈ rest, ∀ p ∈ u, adjCount tok p.2 ≤ mt p.1 :=
      fun u hu => hpw u (by simp [hu])
    have hs_r : ∀ u ∈ rest, ((u.map Prod.fst).Pairwise (· < ·)) :=
      fun u hu => hs u (by simp [hu])
    have hshape_r : ∀ u ∈ rest, turnShape u := fun u hu => hshape u (by simp [hu])
    by_cases h0 : e ≤ 0
    · rw [if_pos h0] at heq
      obtain ⟨out1, hrec1⟩ : ∃ out1, processTurns tok mt rest e = some out1 := by
        cases hh : processTurns tok mt rest e with
        | none => rw [hh] at heq; exact absurd heq (by simp)
        | some o => exact ⟨o, rfl⟩
      rw [hrec1] at heq
      dsimp only at heq
      injection heq with h
      subst h
      have hih := ih e out1 hrec1 he hpw_r hs_r hshape_r
      rw [adjSum_append, adjSum_map_some]
      have hhead : ((t.map (fun p => adjCount tok p.2)).sum : Int) ≤
          (turnTokens mt t : Int) := by
        exact_mod_cast sum_adjCount_le_turnTokens hpw_t
      have hz : e = 0 := by omega
      subst hz
      simp only [List.map_cons, List.sum_cons, Nat.cast_add]
      omega
    · rw [if_neg h0] at heq
      obtain ⟨newTurn, e1, hrec1⟩ : ∃ nt e1,
          truncateTurn tok t mt e (decide (rest = [])) = some (nt, e1) := by
        cases hh : truncateTurn tok t mt e (decide (rest = [])) with
        | none => rw [hh] at heq; exact absurd heq (by simp)
        | some p =>
          obtain ⟨a, b⟩ := p
          exact ⟨a, b, rfl⟩
      rw [hrec1] at heq
      dsimp only at heq
      obtain ⟨out1, hrec2⟩ : ∃ out1, processTurns tok mt rest e1 = some out1 := by
        cases hh : processTurns tok mt rest e1 with
        | none => rw [hh] at heq; exact absurd heq (by simp)
        | some o => exact ⟨o, rfl⟩
      rw [hrec2] at heq
      dsimp only at heq
      injection heq with h
      subst h
      obtain ⟨he1a, he1b, hfoot, hbnd⟩ := truncateTurn_bound ht t mt e _ newTurn e1 hrec1
        (by omega) hpw_t (hs t (by simp)) (hshape t (by simp))
      have hih := ih e1 out1 hrec2 he1a hpw_r hs_r hshape_r
      rw [adjSum_append]
      have h2 : (0 : Int) ≤ ((rest.map (turnTokens mt)).sum : Nat) := Int.natCast_nonneg _
      simp only [List.map_cons, List.sum_cons]
      rw [Nat.cast_add, Nat.cast_add]
      have h3 : (0 : Int) ≤ (adjSum tok out1 : Nat) := Int.natCast_nonneg _
      have h4 : (0 : Int) ≤ (adjSum tok newTurn : Nat) := Int.natCast_nonneg _
      omega


/-- The stripped string is never longer than the original. -/
theorem pyStrip_length_le (s : String) : (pyStrip s).length ≤ s.length := by
  show ((s.data.dropWhile Char.isWhitespace).reverse.dropWhile
      Char.isWhitespace).reverse.length ≤ s.data.length
  rw [List.length_reverse]
  calc ((s.data.dropWhile Char.isWhitespace).reverse.dropWhile Char.isWhitespace).length
      ≤ (s.data.dropWhile Char.isWhitespace).reverse.length :=
        (List.dropWhile_sublist _).length_le
    _ = (s.data.dropWhile Char.isWhitespace).length := List.length_reverse _
    _ ≤ s.data.length := (List.dropWhile_sublist _).length_le

/-- The character-level tokenizer satisfies the truncation law. -/
theorem charTok_truncBound : charTok.TruncBound := by
  intro s m b hm
  have h1 : (charTok.truncate s m b).length ≤ m.toNat := by
    show (if s.length ≤ m.toNat then s
          else if b then pyTake s (m.toNat - m.toNat / 2) ++ pyTakeRight s (m.toNat / 2)
          else pyTake s m.toNat).length ≤ m.toNat
    split
    · omega
    · split
      · rename_i hlen _
        rw [String.length_append]
        show (s.data.take (m.toNat - m.toNat / 2)).length +
            (s.data.drop (s.data.length - m.toNat / 2)).length ≤ m.toNat
        rw [List.length_take, List.length_drop]
        have hsl : s.length = s.data.length := rfl
        omega
      · show (s.data.take m.toNat).length ≤ m.toNat
        rw [List.length_take]
        omega
  have h2 := pyStrip_length_le (charTok.truncate s m b)
  show ((pyStrip (charTok.truncate s m b)).length : Int) ≤ m
  omega

/-- The open-turn prefix and the collected turns of `turnSplitAux i`,
concatenated, list exactly the non-system messages in order. -/
theorem turnSplitAux_snd_map (msgs : List Message) :
    ∀ i : Nat, ((turnSplitAux i msgs).1 ++ (turnSplitAux i msgs).2.flatten).map Prod.snd =
      msgs.filter (fun m => ¬ m.role = .system) := by
  induction msgs with
  | nil => intro i; rfl
  | cons m rest ih =>
    intro i
    rcases haux : turnSplitAux (i + 1) rest with ⟨cur, groups⟩
    have ih' := ih (i + 1)
    rw [haux] at ih'
    cases hr : m.role <;>
      simp only [turnSplitAux, haux, hr, List.filter_cons] <;>
      simp_all

/-- Every indexed entry produced by `turnSplitAux i` points back to the
message at its index (offset by `i`) and is not a system message. -/
theorem turnSplitAux_mem (msgs : List Message) :
    ∀ i : Nat, ∀ p ∈ (turnSplitAux i msgs).1 ++ (turnSplitAux i msgs).2.flatten,
      i ≤ p.1 ∧ msgs[p.1 - i]? = some p.2 ∧ ¬ p.2.role = .system := by
  induction msgs with
  | nil => intro i p hp; exact absurd hp (by simp [turnSplitAux])
  | cons m rest ih =>
    intro i p hp
    rcases haux : turnSplitAux (i + 1) rest with ⟨cur, groups⟩
    have ih' := ih (i + 1)
    rw [haux] at ih'
    have hshift : ∀ q : Nat × Message, i + 1 ≤ q.1 → rest[q.1 - (i + 1)]? = some q.2 →
        i ≤ q.1 ∧ (m :: rest)[q.1 - i]? = some q.2 := by
      intro q hq1 hq2
      refine ⟨by omega, ?_⟩
      have hidx : q.1 - i = (q.1 - (i + 1)) + 1 := by omega
      rw [hidx, List.getElem?_cons_succ]
      exact hq2
    have hself : i ≤ i ∧ (m :: rest)[i - i]? = some m := by
      refine ⟨le_refl _, ?_⟩
      have : i - i = 0 := by omega
      rw [this, List.getElem?_cons_zero]
    cases hr : m.role
    · simp only [turnSplitAux, haux, hr] at hp
      obtain ⟨hq1, hq2, hq3⟩ := ih' p hp
      exact ⟨(hshift p hq1 hq2).1, (hshift p hq1 hq2).2, hq3⟩
    · simp only [turnSplitAux, haux, hr, List.nil_append, List.flatten_cons,
        List.cons_append, List.mem_cons, List.mem_append] at hp
      rcases hp with rfl | hp
      · exact ⟨hself.1, hself.2, by simp [hr]⟩
      · obtain ⟨hq1, hq2, hq3⟩ := ih' p (by simpa using hp)
        exact ⟨(hshift p hq1 hq2).1, (hshift p hq1 hq2).2, hq3⟩
    · simp only [turnSplitAux, haux, hr, List.cons_append, List.mem_cons] at hp
      rcases hp with rfl | hp
      · exact ⟨hself.1, hself.2, by simp [hr]⟩
      · obtain ⟨hq1, hq2, hq3⟩ := ih' p (by simpa using hp)
        exact ⟨(hshift p hq1 hq2).1, (hshift p hq1 hq2).2, hq3⟩
    · simp only [turnSplitAux, haux, hr, List.cons_append, List.mem_cons] at hp
      rcases hp with rfl | hp
      · exact ⟨hself.1, hself.2, by simp [hr]⟩
      · obtain ⟨hq1, hq2, hq3⟩ := ih' p (by simpa using hp)
        exact ⟨(hshift p hq1 hq2).1, (hshift p hq1 hq2).2, hq3⟩

/-- The indices collected by `turnSplitAux i` are strictly increasing. -/
theorem turnSplitAux_sorted (msgs : List Message) :
    ∀ i : Nat, (((turnSplitAux i msgs).1 ++
      (turnSplitAux i msgs).2.flatten).map Prod.fst).Pairwise (· < ·) := by
  induction msgs with
  | nil => intro i; simp [turnSplitAux]
  | cons m rest ih =>
    intro i
    rcases haux : turnSplitAux (i + 1) rest with ⟨cur, groups⟩
    have ih' := ih (i + 1)
    rw [haux] at ih'
    have hmemlo : ∀ j ∈ ((cur ++ groups.flatten).map Prod.fst), i < j := by
      intro j hj
      obtain ⟨q, hq, rfl⟩ := List.mem_map.mp hj
      have := turnSplitAux_mem rest (i + 1) q (by rw [haux]; exact hq)
      omega
    cases hr : m.role <;>
      simp only [turnSplitAux, haux, hr, List.nil_append, List.flatten_cons,
        List.cons_append, List.map_cons]
    · exact ih'
    · exact List.pairwise_cons.mpr ⟨hmemlo, ih'⟩
    · exact List.pairwise_cons.mpr ⟨hmemlo, ih'⟩
    · exact List.pairwise_cons.mpr ⟨hmemlo, ih'⟩


/-- The open-turn prefix never holds user or system messages. -/
theorem turnSplitAux_cur_roles (msgs : List Message) :
    ∀ i : Nat, ∀ p ∈ (turnSplitAux i msgs).1,
      p.2.role = .assistant ∨ p.2.role = .function := by
  induction msgs with
  | nil => intro i p hp; exact absurd hp (by simp [turnSplitAux])
  | cons m rest ih =>
    intro i p hp
    rcases haux : turnSplitAux (i + 1) rest with ⟨cur, groups⟩
    have ih' := ih (i + 1)
    rw [haux] at ih'
    cases hr : m.role
    · simp only [turnSplitAux, haux, hr] at hp
      exact ih' p hp
    · simp only [turnSplitAux, haux, hr] at hp
      exact absurd hp (by simp)
    · simp only [turnSplitAux, haux, hr, List.mem_cons] at hp
      rcases hp with rfl | hp
      · exact Or.inl hr
      · exact ih' p hp
    · simp only [turnSplitAux, haux, hr, List.mem_cons] at hp
      rcases hp with rfl | hp
      · exact Or.inr hr
      · exact ih' p hp

/-- Shape of the open-turn prefix for system-free message lists: empty when
the list is empty or starts with a user message, otherwise headed by the
first message at index `i`. -/
theorem turnSplitAux_cur_head (msgs : List Message) (i : Nat)
    (hs : ∀ m ∈ msgs, ¬ m.role = .system) :
    (turnSplitAux i msgs).1 = [] ∨
      ∃ m rest, msgs = m :: rest ∧ ¬ m.role = .user ∧
        (turnSplitAux i msgs).1 = (i, m) :: (turnSplitAux (i + 1) rest).1 := by
  cases msgs with
  | nil => exact Or.inl rfl
  | cons m rest =>
    rcases haux : turnSplitAux (i + 1) rest with ⟨cur, groups⟩
    cases hr : m.role
    · exact absurd hr (by simpa using hs m (by simp))
    · exact Or.inl (by simp [turnSplitAux, haux, hr])
    · exact Or.inr ⟨m, rest, rfl, by simp [hr], by simp [turnSplitAux, haux, hr]⟩
    · exact Or.inr ⟨m, rest, rfl, by simp [hr], by simp [turnSplitAux, haux, hr]⟩

/-- For a system-free message list respecting the tool-pairing consequence,
every collected turn is well-shaped. -/
theorem turnSplitAux_shape (msgs : List Message)
    (hs : ∀ m ∈ msgs, ¬ m.role = .system) (hn : noFnAfterUser msgs = true) :
    ∀ i : Nat, ∀ t ∈ (turnSplitAux i msgs).2, turnShape t := by
  induction msgs with
  | nil => intro i t ht; exact absurd ht (by simp [turnSplitAux])
  | cons m rest ih =>
    intro i t ht
    have hs' : ∀ x ∈ rest, ¬ x.role = .system := fun x hx => hs x (by simp [hx])
    have hn' : noFnAfterUser rest = true := by
      cases rest with
      | nil => rfl
      | cons b r =>
        simp only [noFnAfterUser, Bool.and_eq_true] at hn
        exact hn.2
    rcases haux : turnSplitAux (i + 1) rest with ⟨cur, groups⟩
    have ih' := ih hs' hn' (i + 1)
    rw [haux] at ih'
    cases hr : m.role
    · exact absurd hr (by simpa using hs m (by simp))
    · simp only [turnSplitAux, haux, hr, List.mem_cons] at ht
      rcases ht with rfl | ht
      · refine ⟨hr, ?_, ?_⟩
        · intro p hp
          exact turnSplitAux_cur_roles rest (i + 1) p (by rw [haux]; exact hp)
        · cases rest with
          | nil =>
            have hnil : cur = [] := by
              have h0 : turnSplitAux (i + 1) ([] : List Message) = ([], []) := rfl
              rw [h0] at haux
              injection haux with h1 h2
              exact h1.symm
            rw [hnil]
            trivial
          | cons b r =>
            have hbnf : ¬ b.role = .function := by
              simp only [noFnAfterUser, Bool.and_eq_true, decide_eq_true_eq] at hn
              intro hb
              exact hn.1 ⟨hr, hb⟩
            rcases turnSplitAux_cur_head (b :: r) (i + 1) hs' with hnil | ⟨b', r', hbr, hbu, hcons⟩
            · rw [haux] at hnil
              dsimp only at hnil
              rw [hnil]
              trivial
            · injection hbr with hb1 hb2
              subst hb1 hb2
              rw [haux] at hcons
              dsimp only at hcons
              rw [hcons]
              cases hb : b.role
              · exact absurd hb (by simpa using hs' b (by simp))
              · exact absurd hb (by simpa using hbu)
              · exact hb
              · exact absurd hb hbnf
      · exact ih' t ht
    · simp only [turnSplitAux, haux, hr] at ht
      exact ih' t ht
    · simp only [turnSplitAux, haux, hr] at ht
      exact ih' t ht


/-- Under the claims' well-formedness, no message precedes the first user
message, so the open-turn prefix at the top level is empty. -/
theorem turnSplitAux_cur_nil (messages : List Message)
    (h1 : sysOnlyFirst messages = true) (h2 : firstNonSystemIsUser messages = true) :
    (turnSplitAux 0 messages).1 = [] := by
  cases messages with
  | nil => rfl
  | cons m rest =>
    have hrest : ∀ x ∈ rest, ¬ x.role = .system := by
      intro x hx
      simp only [sysOnlyFirst, List.all_eq_true] at h1
      simpa using h1 x hx
    rcases haux : turnSplitAux 1 rest with ⟨cur, groups⟩
    cases hr : m.role
    · simp only [turnSplitAux, haux, hr]
      rcases turnSplitAux_cur_head rest 1 hrest with hnil | ⟨b, r, hbr, hbu, hcons⟩
      · rw [haux] at hnil
        exact hnil
      · exfalso
        subst hbr
        simp [firstNonSystemIsUser, hr] at h2
        cases hb : b.role
        · exact absurd hb (by simpa using hrest b (by simp))
        · exact hbu hb
        · simp [firstNonSystemIsUser, hb] at h2
        · simp [firstNonSystemIsUser, hb] at h2
    · simp [turnSplitAux, haux, hr]
    · simp [firstNonSystemIsUser, hr] at h2
    · simp [firstNonSystemIsUser, hr] at h2

/-- Under the claims' well-formedness and tool pairing, every turn built by
the truncator is well-shaped. -/
theorem indexedTurns_shape (messages : List Message)
    (h1 : sysOnlyFirst messages = true) (h2 : firstNonSystemIsUser messages = true)
    (h3 : noFnAfterUser messages = true) :
    ∀ t ∈ indexedTurns messages, turnShape t := by
  cases messages with
  | nil => intro t ht; exact absurd ht (by simp [indexedTurns, turnSplitAux])
  | cons m rest =>
    have hrest : ∀ x ∈ rest, ¬ x.role = .system := by
      intro x hx
      simp only [sysOnlyFirst, List.all_eq_true] at h1
      simpa using h1 x hx
    have hn' : noFnAfterUser rest = true := by
      cases rest with
      | nil => rfl
      | cons b r =>
        simp only [noFnAfterUser, Bool.and_eq_true] at h3
        exact h3.2
    intro t ht
    rcases haux : turnSplitAux 1 rest with ⟨cur, groups⟩
    cases hr : m.role
    · simp only [indexedTurns, turnSplitAux, haux, hr] at ht
      have := turnSplitAux_shape rest hrest hn' 1 t (by rw [haux]; exact ht)
      exact this
    · have hall : ∀ x ∈ m :: rest, ¬ x.role = .system := by
        intro x hx
        rcases List.mem_cons.mp hx with rfl | hx
        · simp [hr]
        · exact hrest x hx
      exact turnSplitAux_shape (m :: rest) hall h3 0 t ht
    · simp [firstNonSystemIsUser, hr] at h2
    · simp [firstNonSystemIsUser, hr] at h2

/-- Every entry of every turn satisfies the adjusted-count bound against the
token map of the input. -/
theorem indexedTurns_pw (tok : Tokenizer) (messages : List Message) :
    ∀ t ∈ indexedTurns messages, ∀ p ∈ t,
      adjCount tok p.2 ≤ msgTokensFn tok messages p.1 := by
  intro t ht p hp
  have hmem : p ∈ (turnSplitAux 0 messages).1 ++ (turnSplitAux 0 messages).2.flatten := by
    refine List.mem_append.mpr (Or.inr ?_)
    exact List.mem_flatten.mpr ⟨t, ht, hp⟩
  obtain ⟨_, hget, hrole⟩ := turnSplitAux_mem messages 0 p hmem
  simp only [Nat.sub_zero] at hget
  rw [msgTokensFn, hget]
  dsimp only
  rw [if_neg (by simpa using hrole)]
  exact adjCount_le tok p.2

/-- Each turn's index list is strictly increasing. -/
theorem indexedTurns_sorted (messages : List Message) :
    ∀ t ∈ indexedTurns messages, ((t.map Prod.fst).Pairwise (· < ·)) := by
  intro t ht
  have hsub : t.Sublist ((turnSplitAux 0 messages).1 ++ (turnSplitAux 0 messages).2.flatten) :=
    (List.sublist_flatten_of_mem ht).trans (List.sublist_append_right _ _)
  exact (turnSplitAux_sorted messages 0).sublist (hsub.map Prod.fst)

/-- Under the claims' well-formedness, the accounted footprints of the turns
sum to the total token count of the non-system messages. -/
theorem indexedTurns_tokens (tok : Tokenizer) (messages : List Message)
    (h1 : sysOnlyFirst messages = true) (h2 : firstNonSystemIsUser messages = true) :
    ((indexedTurns messages).map (turnTokens (msgTokensFn tok messages))).sum =
      allTokensOf tok messages := by
  have hcur := turnSplitAux_cur_nil messages h1 h2
  rw [turnTokens_flatten]
  have hflat : (turnSplitAux 0 messages).2.flatten =
      (turnSplitAux 0 messages).1 ++ (turnSplitAux 0 messages).2.flatten := by
    rw [hcur, List.nil_append]
  show turnTokens (msgTokensFn tok messages) (turnSplitAux 0 messages).2.flatten =
      allTokensOf tok messages
  rw [hflat, turnTokens]
  have hpt : ∀ p ∈ (turnSplitAux 0 messages).1 ++ (turnSplitAux 0 messages).2.flatten,
      msgTokensFn tok messages p.1 = countTokensMsg tok p.2 := by
    intro p hp
    obtain ⟨_, hget, hrole⟩ := turnSplitAux_mem messages 0 p hp
    simp only [Nat.sub_zero] at hget
    rw [msgTokensFn, hget]
    dsimp only
    rw [if_neg (by simpa using hrole)]
  rw [List.map_congr_left hpt]
  have : ((turnSplitAux 0 messages).1 ++ (turnSplitAux 0 messages).2.flatten).map
      (fun p => countTokensMsg tok p.2) =
      (((turnSplitAux 0 messages).1 ++ (turnSplitAux 0 messages).2.flatten).map
        Prod.snd).map (countTokensMsg tok) := by
    rw [List.map_map]
    rfl
  rw [this, turnSplitAux_snd_map messages 0]
  rfl

/-- The adjusted token sum of untouched messages is at most their real total. -/
theorem adjSum_map_some_le (tok : Tokenizer) (l : List Message) :
    adjSum tok (l.map some) ≤ totalTokens tok l := by
  rw [adjSum, List.map_map, totalTokens]
  refine List.sum_le_sum ?_
  intro m _
  exact adjCount_le tok m

/-- Under `sysOnlyFirst` the system filter is empty or a singleton, and the
available budget is `max_tokens` minus that message's token count. -/
theorem availableOf_cases (tok : Tokenizer) (maxTokens : Int) (messages : List Message)
    (h1 : sysOnlyFirst messages = true) :
    (messages.filter (fun m => m.role = .system) = [] ∧
      availableOf tok maxTokens messages = maxTokens) ∨
    (∃ s, messages.filter (fun m => m.role = .system) = [s] ∧
      availableOf tok maxTokens messages = maxTokens - countTokensMsg tok s) := by
  have hlen := sysOnlyFirst_filter_le_one h1
  cases hfil : messages.filter (fun m => m.role = .system) with
  | nil => exact Or.inl ⟨rfl, by rw [availableOf, hfil]; rfl⟩
  | cons s rest =>
    rw [hfil] at hlen
    have : rest = [] := by
      cases rest with
      | nil => rfl
      | cons b r => simp at hlen
    subst this
    exact Or.inr ⟨s, rfl, by rw [availableOf, hfil]; rfl⟩


/-- C1 (amended): budget satisfaction holds for the ADJUSTED token sum, in
which a returned message whose content is the literal placeholder string
'omit' (the zero-cost stand-in installed for minimised tool results and
omitted steps) counts as 0 tokens and a dropped slot counts as 0: for every
well-formed conversation (at most one system message, placed first; first
non-system message a user message; no tool-result directly after a user
message) and every `max_tokens` at least the system message's token count,
whenever `truncate_input_messages_roughly` returns a message list, its
adjusted token sum is at most `max_tokens`.  The tokenizer is modelled from
the spec and assumed to satisfy its truncation law. -/
theorem truncate_budget_satisfaction (tok : Tokenizer) (ht : tok.TruncBound)
    (messages : List Message) (maxTokens : Int)
    (h1 : sysOnlyFirst messages = true)
    (h2 : firstNonSystemIsUser messages = true)
    (h3 : noFnAfterUser messages = true)
    (h4 : 0 ≤ availableOf tok maxTokens messages)
    (out : List (Option Message))
    (hok : truncateInputMessagesRoughly tok messages maxTokens = .ok out) :
    (adjSum tok out : Int) ≤ maxTokens := by
  have hkey : (((messages.filter (fun m => m.role = .system)).map
        (countTokensMsg tok)).sum : Int) + availableOf tok maxTokens messages ≤
        maxTokens := by
    rcases availableOf_cases tok maxTokens messages h1 with ⟨hfil, hav⟩ | ⟨sysm, hfil, hav⟩
    · rw [hfil, hav]
      simp
    · rw [hfil, hav]
      simp only [List.map_cons, List.map_nil, List.sum_cons, List.sum_nil]
      push_cast
      omega
  rw [truncateInputMessagesRoughly] at hok
  rw [if_neg (by have := sysOnlyFirst_filter_le_one h1; omega)] at hok
  by_cases hemp : messages = []
  · subst hemp
    rw [if_pos rfl] at hok
    injection hok with h
    subst h
    have hav : availableOf tok maxTokens [] = maxTokens := rfl
    rw [hav] at h4
    simp only [adjSum, List.map_nil, List.sum_nil, Nat.cast_zero]
    omega
  · rw [if_neg hemp, if_neg (by simp [h2])] at hok
    dsimp only at hok
    by_cases hfast : (allTokensOf tok messages : Int) ≤ availableOf tok maxTokens messages
    · rw [if_pos hfast] at hok
      injection hok with h
      subst h
      have hle : adjSum tok (messages.map some) ≤ totalTokens tok messages :=
        adjSum_map_some_le tok messages
      have hsplit := totalTokens_split tok messages
      have hle' : ((adjSum tok (messages.map some) : Nat) : Int) ≤
          ((totalTokens tok messages : Nat) : Int) := by exact_mod_cast hle
      have hsplit' : ((totalTokens tok messages : Nat) : Int) =
          (((messages.filter (fun m => m.role = .system)).map
            (countTokensMsg tok)).sum : Int) + (allTokensOf tok messages : Int) := by
        exact_mod_cast congrArg (Nat.cast : Nat → Int) hsplit
      omega
    · rw [if_neg hfast] at hok
      by_cases hav0 : availableOf tok maxTokens messages ≤ 0
      · rw [if_pos hav0] at hok
        exact absurd hok (by simp)
      rw [if_neg hav0] at hok
      obtain ⟨pout, hproc⟩ : ∃ pout,
          processTurns tok (msgTokensFn tok messages) (indexedTurns messages)
            ((allTokensOf tok messages : Int) - availableOf tok maxTokens messages) =
            some pout := by
        cases hh : processTurns tok (msgTokensFn tok messages) (indexedTurns messages)
            ((allTokensOf tok messages : Int) - availableOf tok maxTokens messages) with
        | none => rw [hh] at hok; exact absurd hok (by simp)
        | some o => exact ⟨o, rfl⟩
      rw [hproc] at hok
      dsimp only at hok
      injection hok with h
      subst h
      have hb := processTurns_bound ht (msgTokensFn tok messages) (indexedTurns messages)
        ((allTokensOf tok messages : Int) - availableOf tok maxTokens messages) pout hproc
        (by omega) (indexedTurns_pw tok messages) (indexedTurns_sorted messages)
        (indexedTurns_shape messages h1 h2 h3)
      rw [indexedTurns_tokens tok messages h1 h2] at hb
      rw [adjSum_append, Nat.cast_add]
      have hsysle : adjSum tok ((messages.filter (fun m => m.role = .system)).map some) ≤
          totalTokens tok (messages.filter (fun m => m.role = .system)) :=
        adjSum_map_some_le tok _
      have hsysle' : ((adjSum tok ((messages.filter (fun m => m.role = .system)).map
          some) : Nat) : Int) ≤
          (((messages.filter (fun m => m.role = .system)).map
            (countTokensMsg tok)).sum : Int) := by
        exact_mod_cast hsysle
      omega


/-- A concrete well-formed conversation on which the literal budget claim
fails: a 2-token user query and a 10-token assistant answer against a
5-token budget. -/
def exBudget : List Message :=
  [⟨Role.user, .str "aa", none⟩, ⟨Role.assistant, .str "aaaaaaaaaa", none⟩]

/-- What the truncator returns on `exBudget` with `max_tokens = 5`: the user
query is replaced by the `'omit'` placeholder (4 real tokens, accounted as 0)
and the assistant answer is truncated to 5 tokens. -/
def exBudgetOut : List (Option Message) :=
  [some ⟨Role.user, .str "omit", none⟩, some ⟨Role.assistant, .str "aaaaa", none⟩]

/-- C1 (counterexample to the literal claim): on the well-formed conversation
`exBudget` with `max_tokens = 5` (at least the absent system message's 0
tokens), the truncator returns a list whose REAL token sum is 9 > 5: the
`'omit'` placeholder it installs for the user query costs 4 tokens that the
algorithm accounts as 0. -/
theorem truncate_budget_sum_counterexample :
    sysOnlyFirst exBudget = true ∧
    firstNonSystemIsUser exBudget = true ∧
    noFnAfterUser exBudget = true ∧
    0 ≤ availableOf charTok 5 exBudget ∧
    truncateInputMessagesRoughly charTok exBudget 5 = .ok exBudgetOut ∧
    ¬ ((outTokens charTok exBudgetOut : Int) ≤ 5) := by
  refine ⟨rfl, rfl, rfl, by decide, by rfl, by decide⟩

/-- Witness instantiating the amended budget theorem on `exBudget`. -/
theorem truncate_budget_satisfaction_witness :
    sysOnlyFirst exBudget = true ∧
    firstNonSystemIsUser exBudget = true ∧
    noFnAfterUser exBudget = true ∧
    0 ≤ availableOf charTok 5 exBudget ∧
    truncateInputMessagesRoughly charTok exBudget 5 = .ok exBudgetOut ∧
    (adjSum charTok exBudgetOut : Int) ≤ 5 :=
  ⟨rfl, rfl, rfl, by decide, by rfl,
   truncate_budget_satisfaction charTok charTok_truncBound exBudget 5 rfl rfl rfl
     (by decide) exBudgetOut (by rfl)⟩

end CatAgent
